import Mathlib

/-!
Verification development for the syncthing usage-reporting service (ursrv):
the blob-backed report store (cmd/ursrv/blob/blob.go) and the in-process
table cache with its serve handlers (cmd/ursrv/serve/serve.go).

Modelling conventions:
* Calendar days are abstracted to natural numbers; rendering a day with
  time.Format(time.DateOnly) is abstracted to the (injective) decimal
  rendering of that number.  The Go zero time value corresponds to day 0,
  matching the spec's "zero sentinel" for "no aggregate computed yet".
* Byte blobs are an inductive type whose constructors stand for the JSON
  encodings produced by the store (json.Marshal is a constructor,
  json.Unmarshal is a pattern match; a junk constructor stands for any
  undecodable blob).
* Go float64 fields are modelled as rationals.
* Go map iteration order is made explicit: wherever the source ranges over
  a map, the model takes the iteration order as a list.
-/

/-- Three-way comparison on naturals, written with decidable tests so that it
reduces in the kernel. -/
def cmpNat (a b : Nat) : Ordering :=
  if a < b then .lt else if b < a then .gt else .eq

/-- Lexicographic three-way comparison of lists of naturals (a shorter list
that is a proper prefix compares less). -/
def cmpNats : List Nat → List Nat → Ordering
  | [], [] => .eq
  | [], _ :: _ => .lt
  | _ :: _, [] => .gt
  | x :: xs, y :: ys => (cmpNat x y).then (cmpNats xs ys)

theorem cmpNat_eq_iff {a b : Nat} : cmpNat a b = .eq ↔ a = b := by
  unfold cmpNat
  split <;> rename_i h
  · simp; omega
  · split <;> rename_i h'
    · simp; omega
    · simp; omega

theorem cmpNat_lt_iff {a b : Nat} : cmpNat a b = .lt ↔ a < b := by
  unfold cmpNat
  split <;> rename_i h
  · simpa using h
  · split <;> simp <;> omega

theorem cmpNat_gt_iff {a b : Nat} : cmpNat a b = .gt ↔ b < a := by
  unfold cmpNat
  split <;> rename_i h
  · simp; omega
  · split <;> simp <;> omega

theorem cmpNats_eq_iff : ∀ {xs ys : List Nat}, cmpNats xs ys = .eq ↔ xs = ys := by
  intro xs
  induction xs with
  | nil => intro ys; cases ys <;> simp [cmpNats]
  | cons x xs ih =>
    intro ys
    cases ys with
    | nil => simp [cmpNats]
    | cons y ys =>
      simp only [cmpNats]
      rcases h : cmpNat x y with _ | _ | _
      · have hxy : x < y := cmpNat_lt_iff.mp h
        simp [Ordering.then]
        omega
      · have hxy : x = y := cmpNat_eq_iff.mp h
        simp [Ordering.then, hxy, ih]
      · have hxy : y < x := cmpNat_gt_iff.mp h
        simp [Ordering.then]
        omega

theorem cmpNats_swap : ∀ {xs ys : List Nat}, cmpNats xs ys = .lt ↔ cmpNats ys xs = .gt := by
  intro xs
  induction xs with
  | nil => intro ys; cases ys <;> simp [cmpNats]
  | cons x xs ih =>
    intro ys
    cases ys with
    | nil => simp [cmpNats]
    | cons y ys =>
      simp only [cmpNats]
      rcases h : cmpNat x y with _ | _ | _
      · have hyx : cmpNat y x = .gt := cmpNat_gt_iff.mpr (cmpNat_lt_iff.mp h)
        simp [Ordering.then, hyx]
      · have hxy : x = y := cmpNat_eq_iff.mp h
        have hyx : cmpNat y x = .eq := cmpNat_eq_iff.mpr hxy.symm
        simp [Ordering.then, hyx, ih]
      · have hyx : cmpNat y x = .lt := cmpNat_lt_iff.mpr (cmpNat_gt_iff.mp h)
        simp [Ordering.then, hyx]

theorem cmpNats_lt_trans :
    ∀ {xs ys zs : List Nat}, cmpNats xs ys = .lt → cmpNats ys zs = .lt → cmpNats xs zs = .lt := by
  intro xs
  induction xs with
  | nil =>
    intro ys zs h₁ h₂
    cases ys with
    | nil => exact h₂
    | cons y ys =>
      cases zs with
      | nil => simp [cmpNats] at h₂
      | cons z zs => simp [cmpNats]
  | cons x xs ih =>
    intro ys zs h₁ h₂
    cases ys with
    | nil => simp [cmpNats] at h₁
    | cons y ys =>
      cases zs with
      | nil => simp [cmpNats] at h₂
      | cons z zs =>
        simp only [cmpNats] at h₁ h₂ ⊢
        rcases hxy : cmpNat x y with _ | _ | _ <;> rw [hxy] at h₁
        · rcases hyz : cmpNat y z with _ | _ | _ <;> rw [hyz] at h₂
          · have hxz : x < z := lt_trans (cmpNat_lt_iff.mp hxy) (cmpNat_lt_iff.mp hyz)
            rw [cmpNat_lt_iff.mpr hxz]
            simp [Ordering.then]
          · have hyzeq : y = z := cmpNat_eq_iff.mp hyz
            rw [← hyzeq, hxy]
            simp [Ordering.then]
          · simp [Ordering.then] at h₂
        · have hxyeq : x = y := cmpNat_eq_iff.mp hxy
          simp only [Ordering.then] at h₁
          rcases hyz : cmpNat y z with _ | _ | _ <;> rw [hyz] at h₂
          · rw [hxyeq, hyz]
            simp [Ordering.then]
          · have hyzeq : y = z := cmpNat_eq_iff.mp hyz
            simp only [Ordering.then] at h₂
            rw [hxyeq, hyzeq, cmpNat_eq_iff.mpr rfl]
            simp only [Ordering.then]
            exact ih h₁ h₂
          · simp [Ordering.then] at h₂
        · simp [Ordering.then] at h₁

theorem cmpNats_le_trans {xs ys zs : List Nat}
    (h₁ : cmpNats xs ys ≠ .gt) (h₂ : cmpNats ys zs ≠ .gt) : cmpNats xs zs ≠ .gt := by
  rcases hxy : cmpNats xs ys with _ | _ | _
  · rcases hyz : cmpNats ys zs with _ | _ | _
    · have := cmpNats_lt_trans hxy hyz
      simp [this]
    · have : ys = zs := cmpNats_eq_iff.mp hyz
      rw [← this, hxy]
      simp
    · exact absurd hyz h₂
  · have : xs = ys := cmpNats_eq_iff.mp hxy
    rw [this]
    exact h₂
  · exact absurd hxy h₁

theorem cmpNats_total (xs ys : List Nat) : cmpNats xs ys ≠ .gt ∨ cmpNats ys xs ≠ .gt := by
  rcases h : cmpNats xs ys with _ | _ | _
  · left; simp
  · left; simp
  · right
    have : cmpNats ys xs = .lt := cmpNats_swap.mpr h
    simp [this]

theorem charToNat_inj {c d : Char} (h : c.toNat = d.toNat) : c = d :=
  Char.ext (UInt32.ext h)

/-- Splits a list of characters on a separator character; mirrors the
behaviour of strings.Split on the separator. -/
def splitCharsOn (sep : Char) : List Char → List (List Char)
  | [] => [[]]
  | c :: rest =>
    match splitCharsOn sep rest with
    | [] => if c = sep then [[], []] else [[c]]
    | h :: t => if c = sep then [] :: h :: t else (c :: h) :: t

/-- Parses a list of decimal digit characters as a natural number, yielding 0
when the list is empty or contains a non-digit. -/
def natOfDigits (cs : List Char) : Nat :=
  if cs ≠ [] ∧ cs.all (fun c => c.isDigit) then
    cs.foldl (fun a c => a * 10 + (c.toNat - 48)) 0
  else 0

/-- Comparison key of a version string: the numeric dotted components, a rank
separating releases from pre-releases, and the pre-release identifier. -/
structure VKey where
  nums : List Nat
  preRank : Nat
  pre : List Nat

/-- Modelled from the spec: upgrade.CompareVersions (package lib/upgrade is
not under src/) performs a "numeric major/minor/patch/pre-release comparison,
not lexical".  The key of a version string ignores a customary leading v,
takes the dotted components before any "-" as numbers, ranks a release above
any pre-release of the same numeric version, and carries the pre-release
identifier (the part after the first "-") for the final tie-break. -/
def normKey (v : String) : VKey :=
  let stripped :=
    if v.data.head? = some ('v') ∨ v.data.head? = some ('V') then v.data.drop 1 else v.data
  let rel := stripped.takeWhile (fun c => c ≠ '-')
  let preTail := stripped.dropWhile (fun c => c ≠ '-')
  { nums := (splitCharsOn ('.') rel).map natOfDigits,
    preRank := if preTail.isEmpty then 1 else 0,
    pre := (preTail.drop 1).map Char.toNat }

/-- Three-way comparison of version keys: numeric components first, then
release/pre-release rank, then the pre-release identifier. -/
def cmpKey (x y : VKey) : Ordering :=
  (cmpNats x.nums y.nums).then ((cmpNat x.preRank y.preRank).then (cmpNats x.pre y.pre))

/-- Modelled from the spec: upgrade.CompareVersions returns a negative,
zero or positive value according to the semantic-version comparison of the
two version strings. -/
def compareVersions (a b : String) : Int :=
  match cmpKey (normKey a) (normKey b) with
  | .lt => -1
  | .eq => 0
  | .gt => 1

/-- Flattening of a version key into a single list of naturals whose
lexicographic comparison agrees with cmpKey; used only in proofs. -/
def encKey (k : VKey) : List Nat :=
  k.nums.map (fun n => n + 1) ++ 0 :: k.preRank :: k.pre

theorem cmpNat_succ (a b : Nat) : cmpNat (a + 1) (b + 1) = cmpNat a b := by
  rcases h : cmpNat a b with _ | _ | _
  · exact cmpNat_lt_iff.mpr (by have := cmpNat_lt_iff.mp h; omega)
  · exact cmpNat_eq_iff.mpr (by have := cmpNat_eq_iff.mp h; omega)
  · exact cmpNat_gt_iff.mpr (by have := cmpNat_gt_iff.mp h; omega)

theorem cmpKey_eq_cmpNats_encKey (x y : VKey) :
    cmpKey x y = cmpNats (encKey x) (encKey y) := by
  obtain ⟨xn, xr, xp⟩ := x
  obtain ⟨yn, yr, yp⟩ := y
  unfold cmpKey encKey
  simp only
  induction xn generalizing yn with
  | nil =>
    cases yn with
    | nil =>
      simp [cmpNats, Ordering.then, cmpNat]
    | cons y ys =>
      simp [cmpNats, Ordering.then, cmpNat]
  | cons x xs ih =>
    cases yn with
    | nil =>
      simp [cmpNats, Ordering.then, cmpNat]
    | cons y ys =>
      simp only [List.map_cons, List.cons_append, cmpNats, cmpNat_succ]
      rcases h : cmpNat x y with _ | _ | _
      · simp [Ordering.then]
      · simp only [Ordering.then]
        exact ih ys
      · simp [Ordering.then]

theorem compareVersions_neg_iff {a b : String} :
    compareVersions a b < 0 ↔ cmpKey (normKey a) (normKey b) = .lt := by
  unfold compareVersions
  rcases h : cmpKey (normKey a) (normKey b) with _ | _ | _ <;> simp

theorem compareVersions_zero_iff {a b : String} :
    compareVersions a b = 0 ↔ cmpKey (normKey a) (normKey b) = .eq := by
  unfold compareVersions
  rcases h : cmpKey (normKey a) (normKey b) with _ | _ | _ <;> simp

/-- Ordering relation used to model sort.Slice with the Go less function
CompareVersions(a, b) < 0: element a may precede element b exactly when b is
not strictly smaller. -/
def verLE (a b : String) : Prop := ¬ compareVersions b a < 0

instance : DecidableRel verLE := fun a b => by
  unfold verLE
  infer_instance

theorem verLE_iff {a b : String} :
    verLE a b ↔ cmpNats (encKey (normKey a)) (encKey (normKey b)) ≠ .gt := by
  unfold verLE
  rw [compareVersions_neg_iff, cmpKey_eq_cmpNats_encKey]
  constructor
  · intro h hgt
    exact h (cmpNats_swap.mpr hgt)
  · intro h hlt
    exact h (cmpNats_swap.mp hlt)

instance : IsTotal String verLE :=
  ⟨fun a b => by
    rw [verLE_iff, verLE_iff]
    exact cmpNats_total _ _⟩

instance : IsTrans String verLE :=
  ⟨fun a b c hab hbc => by
    rw [verLE_iff] at hab hbc ⊢
    exact cmpNats_le_trans hab hbc⟩

theorem verLE_antisymm_key {a b : String} (h₁ : verLE a b) (h₂ : verLE b a) :
    compareVersions a b = 0 := by
  rw [verLE_iff] at h₁ h₂
  rw [compareVersions_zero_iff, cmpKey_eq_cmpNats_encKey]
  rcases h : cmpNats (encKey (normKey a)) (encKey (normKey b)) with _ | _ | _
  · exact absurd (cmpNats_swap.mp h) h₂
  · rfl
  · exact absurd h h₁

/-- Byte comparison key of a string (characters as code points). -/
def strKey (s : String) : List Nat := s.data.map Char.toNat

/-- Ordering relation used to model sort.Strings: lexicographic comparison of
the characters. -/
def strLE (a b : String) : Prop := cmpNats (strKey a) (strKey b) ≠ .gt

instance : DecidableRel strLE := fun a b => by
  unfold strLE
  infer_instance

instance : IsTotal String strLE :=
  ⟨fun _ _ => cmpNats_total _ _⟩

instance : IsTrans String strLE :=
  ⟨fun _ _ _ hab hbc => cmpNats_le_trans hab hbc⟩

theorem strLE_antisymm {a b : String} (h₁ : strLE a b) (h₂ : strLE b a) : a = b := by
  unfold strLE at h₁ h₂
  have hkey : strKey a = strKey b := by
    rcases h : cmpNats (strKey a) (strKey b) with _ | _ | _
    · exact absurd (cmpNats_swap.mp h) h₂
    · exact cmpNats_eq_iff.mp h
    · exact absurd h h₁
  apply String.ext
  unfold strKey at hkey
  have : ∀ cs ds : List Char, cs.map Char.toNat = ds.map Char.toNat → cs = ds := by
    intro cs
    induction cs with
    | nil => intro ds h; cases ds <;> simp_all
    | cons c cs ih =>
      intro ds h
      cases ds with
      | nil => simp at h
      | cons d ds =>
        simp only [List.map_cons, List.cons.injEq] at h
        exact List.cons_eq_cons.mpr ⟨charToNat_inj h.1, ih ds h.2⟩
  exact this _ _ hkey

/-- JSON value appearing in a cell of one of the cached tables; stands for an
entry of the Go [][]interface slices that are marshalled to JSON. -/
inductive Cell where
  | str (s : String)
  | int (n : Int)
  | rat (q : Rat)
  | null
deriving DecidableEq

/-- Association-list update mirroring a Go map assignment m[k] = v: replaces
the binding if the key is present, otherwise appends a new binding. -/
def aset {α : Type} : List (String × α) → String → α → List (String × α)
  | [], k, v => [(k, v)]
  | (k', v') :: t, k, v => if k' = k then (k, v) :: t else (k', v') :: aset t k v

/-- State of the summary (version adoption) table, from serve.go: version
string to column index, version string to maximum single-day count, and date
to row of counts.  The Go maps are modelled as association lists. -/
structure Summary where
  versions : List (String × Nat)
  max : List (String × Int)
  rows : List (String × List Int)
deriving DecidableEq

/-- Mirrors newSummary in serve.go: all three maps start empty. -/
def newSummary : Summary :=
  { versions := [], max := [], rows := [] }

/-- Loop body of summary.setCount for a single (version, count) pair of the
ranged-over map: assign a column index on first sight (the current size of the
version map), raise the tracked per-version maximum, grow the date's row to
the column index if needed, and store the count. -/
def setCount1 (s : Summary) (date version : String) (count : Int) : Summary :=
  let p :=
    match s.versions.lookup version with
    | some i => (i, s.versions)
    | none => (s.versions.length, s.versions ++ [(version, s.versions.length)])
  let idx := p.1
  let versions' := p.2
  let max' :=
    if (s.max.lookup version).getD 0 < count then aset s.max version count else s.max
  let row := (s.rows.lookup date).getD []
  let row' :=
    if row.length ≤ idx then row ++ List.replicate (idx + 1 - row.length) 0 else row
  { versions := versions', max := max', rows := aset s.rows date (row'.set idx count) }

/-- Mirrors summary.setCount in serve.go; the iteration order of the Go map
of per-version counts is made explicit as the order of the list. -/
def setCount (s : Summary) (date : String) (counts : List (String × Int)) : Summary :=
  counts.foldl (fun acc vc => setCount1 acc date vc.1 vc.2) s

/-- Mirrors summary.filter in serve.go: removes versions whose tracked
maximum is below the given minimum from the version-index and maximum maps,
leaving the data rows alone. -/
def filterSummary (s : Summary) (mn : Int) : Summary :=
  { versions := s.versions.filter (fun p => decide (¬ (s.max.lookup p.1).getD 0 < mn)),
    max := s.max.filter
      (fun p => decide (¬ ((s.versions.lookup p.1).isSome ∧ (s.max.lookup p.1).getD 0 < mn))),
    rows := s.rows }

/-- Data cell emitted by summary.MarshalJSON for one (date, version) pair:
the stored count when the row reaches the version's column and the count is
positive, otherwise null. -/
def summaryCell (s : Summary) (date ver : String) : Cell :=
  let idx := (s.versions.lookup ver).getD 0
  let row := (s.rows.lookup date).getD []
  if idx < row.length ∧ 0 < row.getD idx 0 then Cell.int (row.getD idx 0) else Cell.null

/-- Mirrors summary.MarshalJSON in serve.go, with the iteration orders of the
two ranged-over maps (version names and date keys) passed explicitly: sort
the versions with CompareVersions (sort.Slice), keep those whose maximum
exceeds 50, emit the header row, then one row per date in sorted order. -/
def marshalJSONWith (s : Summary) (vIter dIter : List String) : List (List Cell) :=
  let versions := List.insertionSort verLE vIter
  let filtered := versions.filter (fun v => decide (50 < (s.max.lookup v).getD 0))
  let headerRow := Cell.str ("Day") :: filtered.map Cell.str
  let dates := List.insertionSort strLE dIter
  headerRow :: dates.map (fun date => Cell.str date :: filtered.map (summaryCell s date))

/-- Canonical run of summary.MarshalJSON: ranges over the maps in the order
the bindings were created. -/
def marshalJSON (s : Summary) : List (List Cell) :=
  marshalJSONWith s (s.versions.map Prod.fst) (s.rows.map Prod.fst)

/-- Tracked per-version maximum as read by the Go code (missing key reads 0). -/
def maxOf (s : Summary) (v : String) : Int := (s.max.lookup v).getD 0

/-- Abstract cell content of the summary state for one (date, version) pair:
the count stored at the version's column of that date's row, 0 when absent. -/
def cellVal (s : Summary) (date v : String) : Int :=
  match s.versions.lookup v with
  | some idx => ((s.rows.lookup date).getD []).getD idx 0
  | none => 0

/-- Modelled from the spec: contract.Report (package lib/ur/contract is not
under src/) — "one client's daily submission: a unique client identifier, a
submission date (day granularity), a protocol version, a submitter network
address".  Only the unique identifier is inspected by the store layer. -/
structure Report where
  uniqueID : String
  date : String
  address : String
  urVersion : Int
deriving DecidableEq

/-- Modelled from the spec: the performance statistics of an aggregated
report ("file counts, data volume, hash throughput, memory figures"); field
names follow their uses in serve.go. -/
structure Performance where
  totFiles : Int
  totMib : Int
  sha256Perf : Rat
  memorySize : Int
  memoryUsageMib : Int
deriving DecidableEq

/-- Modelled from the spec: the block-transfer-savings statistics of an
aggregated report ("amounts pulled vs. saved via renaming/resuming/reuse");
field names follow their uses in serve.go. -/
structure BlockStats where
  pulled : Rat
  renamed : Rat
  reused : Rat
  copyOrigin : Rat
  copyOriginShifted : Rat
  copyElsewhere : Rat
deriving DecidableEq

/-- Modelled from the spec: report.BlockStats.Valid (package cmd/ursrv/report
is not under src/) — the validity predicate holds when "the aggregate's
block-statistics are all non-negative". -/
def BlockStats.valid (b : BlockStats) : Bool :=
  decide (0 ≤ b.pulled) && decide (0 ≤ b.renamed) && decide (0 ≤ b.reused) &&
    decide (0 ≤ b.copyOrigin) && decide (0 ≤ b.copyOriginShifted) &&
    decide (0 ≤ b.copyElsewhere)

/-- Modelled from the spec: report.AggregatedReport (package cmd/ursrv/report
is not under src/) — "a single day's rollup: the aggregation date, per-version
population counts, a version-count mapping, performance statistics,
block-transfer-savings statistics, geo-weighted location counts".  Day 0 is
the zero sentinel of the Go zero time value; the iteration order of the
version-count map is the order of the list. -/
structure AggregatedReport where
  date : Nat
  nodes : Int
  versionCount : List (String × Int)
  performance : Performance
  blockStats : BlockStats
  locations : List (String × Int)
deriving DecidableEq

/-- Byte blob stored in the blob store: either empty, the JSON encoding of a
usage report or of an aggregated report, or junk that fails to decode. -/
inductive Blob where
  | empty
  | usage (r : Report)
  | agg (a : AggregatedReport)
  | junk
deriving DecidableEq

/-- Mirrors USAGE_PREFIX in blob.go. -/
def usagePre : String := "UR"

/-- Mirrors AGGREGATED_PREFIX in blob.go. -/
def aggPre : String := "AR"

/-- Abstraction of when.Format(time.DateOnly): an injective textual rendering
of the day number. -/
def dateOnly (d : Nat) : String := toString d

/-- Mirrors usageReportKey in blob.go: "UR~" + date + "-" + uniqueId. -/
def usageReportKey (d : Nat) (uniqueId : String) : String :=
  usagePre ++ "~" ++ dateOnly d ++ "-" ++ uniqueId

/-- Mirrors aggregatedReportKey in blob.go: "AR~" + date. -/
def aggregatedReportKey (d : Nat) : String :=
  aggPre ++ "~" ++ dateOnly d

/-- State of the blob store backend: the stored blobs by key (the list order
is the backend's enumeration order) together with the set of keys on which
the backend currently fails with an I/O error. -/
structure BlobStore where
  blobs : List (String × Blob)
  failing : List String
deriving DecidableEq

/-- Mirrors Store.Get: an I/O failure on a failing key, NotFound on an absent
key, otherwise the stored blob. -/
def getBlob (store : BlobStore) (key : String) : Except String Blob :=
  if key ∈ store.failing then .error ("store unavailable")
  else
    match store.blobs.lookup key with
    | some b => .ok b
    | none => .error ("not found")

/-- Mirrors Store.Put: an I/O failure on a failing key, otherwise stores or
overwrites the blob at the key. -/
def putBlob (store : BlobStore) (key : String) (b : Blob) : Option String × BlobStore :=
  if key ∈ store.failing then (some ("store unavailable"), store)
  else (none, { store with blobs := aset store.blobs key b })

/-- Decoding of a blob as an aggregated report: json.Unmarshal succeeds on the
encoding of an aggregated report and fails on anything else. -/
def decodeAggregated (b : Blob) : Except String AggregatedReport :=
  match b with
  | .agg a => .ok a
  | _ => .error ("json unmarshal error")

/-- Mirrors UrsrvStore.PutUsageReport in blob.go: compute the key from the
received time's calendar day and the report's unique ID; if a non-empty blob
already exists at that key fail with "already exists", otherwise store the
JSON-encoded report. -/
def putUsageReport (store : BlobStore) (rep : Report) (receivedDay : Nat) :
    Option String × BlobStore :=
  let key := usageReportKey receivedDay rep.uniqueID
  let isDup : Bool :=
    match getBlob store key with
    | .ok data => decide (data ≠ Blob.empty)
    | .error _ => false
  if isDup then (some ("already exists"), store)
  else putBlob store key (Blob.usage rep)

/-- Mirrors UrsrvStore.PutAggregatedReport in blob.go: stores or overwrites
the JSON-encoded aggregate at the key of the report's date. -/
def putAggregatedReport (store : BlobStore) (rep : AggregatedReport) :
    Option String × BlobStore :=
  putBlob store (aggregatedReportKey rep.date) (Blob.agg rep)

/-- Mirrors UrsrvStore.ListAggregatedReports in blob.go: iterate the blobs
whose key starts with the aggregate key space, decoding each and silently
skipping any blob that fails to decode. -/
def listAggregatedReports (store : BlobStore) : List AggregatedReport :=
  store.blobs.filterMap (fun kb =>
    if aggPre.data.isPrefixOf kb.1.data then
      match kb.2 with
      | .agg a => some a
      | _ => none
    else none)

/-- Mirrors UrsrvStore.LastAggregatedReport in blob.go: look up the aggregate
key of exactly the day before the current day; any Get failure becomes the
"no aggregated report found" error, and a successful Get is decoded (a decode
failure is returned as such). -/
def lastAggregatedReport (store : BlobStore) (today : Nat) :
    Except String AggregatedReport :=
  let date := today - 1
  let key := aggregatedReportKey date
  match getBlob store key with
  | .error _ => .error ("no aggregated report found")
  | .ok data => decodeAggregated data

deriving instance DecidableEq for Except

/-- Mirrors blocksToGb in serve.go: the fixed block-count-to-gibibyte
divisor float64(8 * 1024). -/
def blocksToGb : Rat := 8 * 1024

/-- Go conversion int(x) of a float64: truncation toward zero. -/
def goTruncInt (x : Rat) : Int :=
  if 0 ≤ x then x.floor else -((-x).floor)

/-- Mirrors float64(int(x * 10)) / 10 in serve.go: truncation to one decimal
place. -/
def goTrunc10 (x : Rat) : Rat :=
  ((goTruncInt (x * 10) : Int) : Rat) / 10

/-- Mirrors newBlockStats in serve.go: the block-stats table starts with only
its header row. -/
def newBlockStats : List (List Cell) :=
  [[Cell.str ("Day"), Cell.str ("Number of Reports"), Cell.str ("Transferred (GiB)"),
    Cell.str ("Saved by renaming files (GiB)"), Cell.str ("Saved by resuming transfer (GiB)"),
    Cell.str ("Saved by reusing data from old file (GiB)"),
    Cell.str ("Saved by reusing shifted data from old file (GiB)"),
    Cell.str ("Saved by reusing data from other files (GiB)")]]

/-- Mirrors newPerformance in serve.go: the performance table starts with
only its header row. -/
def newPerformance : List (List Cell) :=
  [[Cell.str ("Day"), Cell.str ("TotFiles"), Cell.str ("TotMiB"), Cell.str ("SHA256Perf"),
    Cell.str ("MemorySize"), Cell.str ("MemoryUsageMiB")]]

/-- Mirrors parseBlockStats in serve.go: no row when the report count is not
positive or the block statistics are invalid (legacy bad data on certain
days), otherwise the date, report count and the six amounts converted to
gibibytes. -/
def parseBlockStats (date : String) (reports : Int) (bs : BlockStats) :
    Option (List Cell) :=
  if reports ≤ 0 ∨ bs.valid = false then none
  else
    some [Cell.str date, Cell.int reports,
      Cell.rat (bs.pulled / blocksToGb), Cell.rat (bs.renamed / blocksToGb),
      Cell.rat (bs.reused / blocksToGb), Cell.rat (bs.copyOrigin / blocksToGb),
      Cell.rat (bs.copyOriginShifted / blocksToGb), Cell.rat (bs.copyElsewhere / blocksToGb)]

/-- Snapshot guarded by the cache mutex in serve.go: the latest aggregated
report, the three cached tables and the refresh timestamp. -/
structure ServerState where
  cachedLatestReport : AggregatedReport
  cachedSummary : Summary
  cachedPerformance : List (List Cell)
  cachedBlockstats : List (List Cell)
  cacheTime : Int
deriving DecidableEq

/-- Mirrors maxCacheTime in serve.go (2 * time.Minute), in abstract clock
units of one minute. -/
def maxCacheTime : Int := 2

/-- Mirrors cacheGraphData in serve.go: fold each aggregate into the summary
table, append a block-stats row when parseBlockStats yields one, and append
the performance row. -/
def cacheGraphData (st : ServerState) (reports : List AggregatedReport) : ServerState :=
  reports.foldl
    (fun acc rep =>
      let date := dateOnly rep.date
      let sum := setCount acc.cachedSummary date rep.versionCount
      let bstats :=
        match parseBlockStats date rep.nodes rep.blockStats with
        | some row => acc.cachedBlockstats ++ [row]
        | none => acc.cachedBlockstats
      let perf := acc.cachedPerformance ++
        [[Cell.str date, Cell.int rep.performance.totFiles, Cell.int rep.performance.totMib,
          Cell.rat (goTrunc10 rep.performance.sha256Perf), Cell.int rep.performance.memorySize,
          Cell.int rep.performance.memoryUsageMib]]
      { acc with cachedSummary := sum, cachedBlockstats := bstats, cachedPerformance := perf })
    st

/-- Mirrors refreshCacheLocked in serve.go, statement for statement: fetch
the last aggregated report (propagating its failure), overwrite the cached
latest report with it, then decide what to fold: everything listed from the
store when the (just overwritten) cached latest report has the zero date, or
the fetched report alone when its date is after the (just overwritten) cached
latest date, then fold and stamp the refresh time.  The current day feeds the
store lookup and now feeds the timestamp; both derive from the same wall
clock. -/
def refreshCacheLocked (st : ServerState) (store : BlobStore) (today : Nat) (now : Int) :
    Option String × ServerState :=
  match lastAggregatedReport store today with
  | .error e => (some e, st)
  | .ok rep =>
    let st₁ := { st with cachedLatestReport := rep }
    let reportsToCache : List AggregatedReport :=
      if st₁.cachedLatestReport.date = 0 then
        listAggregatedReports store
      else if st₁.cachedLatestReport.date < rep.date then [rep]
      else []
    let st₂ := if 0 < reportsToCache.length then cacheGraphData st₁ reportsToCache else st₁
    (none, { st₂ with cacheTime := now })

/-- Response of one of the HTTP handlers in serve.go, with the payload it
serializes. -/
inductive Resp where
  | okTable (t : List (List Cell))
  | okLocations (l : List (String × Int))
  | okRoot (r : AggregatedReport)
  | httpError (code : Nat) (msg : String)
deriving DecidableEq

/-- Stale check shared by the handlers in serve.go followed by the
synchronous refresh: time.Since(s.cacheTime) > maxCacheTime. -/
def refreshIfStale (st : ServerState) (store : BlobStore) (today : Nat) (now : Int) :
    Option String × ServerState :=
  if maxCacheTime < now - st.cacheTime then refreshCacheLocked st store today now
  else (none, st)

/-- Mirrors rootHandler in serve.go: a 404 away from the root paths; on the
root path refresh when stale (failing the request with a 500 when the refresh
fails) and render the template over the cached latest report. -/
def rootHandler (st : ServerState) (store : BlobStore) (today : Nat) (now : Int)
    (path : String) : Resp × ServerState :=
  if path = "/" ∨ path = "/index.html" then
    match refreshIfStale st store today now with
    | (some _, st₁) => (Resp.httpError 500 ("Template Error"), st₁)
    | (none, st₁) => (Resp.okRoot st₁.cachedLatestReport, st₁)
  else (Resp.httpError 404 ("Not found"), st)

/-- Mirrors locationsHandler in serve.go: refresh when stale (500 on a failed
refresh), then serve the locations of the cached latest report. -/
def locationsHandler (st : ServerState) (store : BlobStore) (today : Nat) (now : Int) :
    Resp × ServerState :=
  match refreshIfStale st store today now with
  | (some _, st₁) => (Resp.httpError 500 ("Template Error"), st₁)
  | (none, st₁) => (Resp.okLocations st₁.cachedLatestReport.locations, st₁)

/-- Mirrors summaryHandler in serve.go: refresh when stale (500 on a failed
refresh), destructively filter the cached summary with the caller's minimum,
then serve its serialization. -/
def summaryHandler (st : ServerState) (store : BlobStore) (today : Nat) (now : Int)
    (mn : Int) : Resp × ServerState :=
  match refreshIfStale st store today now with
  | (some _, st₁) => (Resp.httpError 500 ("Template Error"), st₁)
  | (none, st₁) =>
    let filtered := filterSummary st₁.cachedSummary mn
    let st₂ := { st₁ with cachedSummary := filtered }
    (Resp.okTable (marshalJSON filtered), st₂)

/-- Mirrors performanceHandler in serve.go: refresh when stale (500 on a
failed refresh), then serve the cached performance table. -/
def performanceHandler (st : ServerState) (store : BlobStore) (today : Nat) (now : Int) :
    Resp × ServerState :=
  match refreshIfStale st store today now with
  | (some _, st₁) => (Resp.httpError 500 ("Template Error"), st₁)
  | (none, st₁) => (Resp.okTable st₁.cachedPerformance, st₁)

/-- Mirrors blockStatsHandler in serve.go: refresh when stale (500 on a
failed refresh), then serve the cached block-stats table. -/
def blockStatsHandler (st : ServerState) (store : BlobStore) (today : Nat) (now : Int) :
    Resp × ServerState :=
  match refreshIfStale st store today now with
  | (some _, st₁) => (Resp.httpError 500 ("Template Error"), st₁)
  | (none, st₁) => (Resp.okTable st₁.cachedBlockstats, st₁)

theorem beq_str_false {a b : String} (h : a ≠ b) : (a == b) = false :=
  beq_eq_false_iff_ne.mpr h

theorem lookup_aset_self {α : Type} (l : List (String × α)) (k : String) (v : α) :
    (aset l k v).lookup k = some v := by
  induction l with
  | nil => simp [aset, List.lookup]
  | cons p t ih =>
    obtain ⟨k', v'⟩ := p
    by_cases h : k' = k
    · subst h
      simp [aset, List.lookup]
    · simp only [aset, if_neg h]
      simp only [List.lookup, beq_str_false (fun he => h he.symm)]
      exact ih

theorem lookup_aset_ne {α : Type} (l : List (String × α)) {k k' : String} (v : α)
    (h : k' ≠ k) : (aset l k v).lookup k' = l.lookup k' := by
  induction l with
  | nil => simp [aset, List.lookup, beq_str_false h]
  | cons p t ih =>
    obtain ⟨k₀, v₀⟩ := p
    by_cases h₀ : k₀ = k
    · subst h₀
      simp only [aset, if_pos rfl]
      simp [List.lookup, beq_str_false h]
    · simp only [aset, if_neg h₀]
      by_cases hk : k' = k₀
      · subst hk
        simp [List.lookup]
      · simp only [List.lookup, beq_str_false hk]
        exact ih

theorem lookup_none_of_not_mem_keys {α : Type} {l : List (String × α)} {v : String}
    (h : v ∉ l.map Prod.fst) : l.lookup v = none := by
  induction l with
  | nil => simp [List.lookup]
  | cons p t ih =>
    simp only [List.map_cons, List.mem_cons] at h
    push_neg at h
    simp only [List.lookup, beq_str_false h.1]
    exact ih h.2

theorem mem_keys_of_lookup_some {α : Type} {l : List (String × α)} {v : String} {a : α}
    (h : l.lookup v = some a) : v ∈ l.map Prod.fst := by
  by_contra hmem
  rw [lookup_none_of_not_mem_keys hmem] at h
  exact Option.noConfusion h

theorem lookup_filter_nodup {α : Type} (l : List (String × α)) (p : String × α → Bool)
    (v : String) (h : (l.map Prod.fst).Nodup) :
    (l.filter p).lookup v =
      match l.lookup v with
      | some a => if p (v, a) then some a else none
      | none => none := by
  induction l with
  | nil => simp [List.lookup]
  | cons q t ih =>
    obtain ⟨k, a⟩ := q
    simp only [List.map_cons, List.nodup_cons] at h
    by_cases hk : v = k
    · subst hk
      simp only [List.lookup, beq_self_eq_true]
      by_cases hp : p (v, a)
      · simp only [List.filter_cons, hp, if_pos]
        simp [List.lookup]
      · simp only [List.filter_cons, hp, if_neg, Bool.false_eq_true, not_false_iff]
        have hnone : (t.filter p).lookup v = none := by
          apply lookup_none_of_not_mem_keys
          intro hmem
          obtain ⟨x, hx, hfst⟩ := List.mem_map.mp hmem
          have hxt : x ∈ t := List.mem_of_mem_filter hx
          exact h.1 (hfst ▸ List.mem_map_of_mem Prod.fst hxt)
        simp [hp, hnone]
    · simp only [List.lookup, beq_str_false hk]
      by_cases hp : p (k, a)
      · simp only [List.filter_cons, hp, if_pos]
        simp only [List.lookup, beq_str_false hk]
        exact ih h.2
      · simp only [List.filter_cons, hp, if_neg, Bool.false_eq_true, not_false_iff]
        exact ih h.2

theorem lookup_filter_none_of_key {α : Type} (l : List (String × α)) (p : String × α → Bool)
    (v : String) (h : ∀ x : String × α, x.1 = v → p x = false) :
    (l.filter p).lookup v = none := by
  induction l with
  | nil => simp [List.lookup]
  | cons q t ih =>
    obtain ⟨k, a⟩ := q
    by_cases hk : k = v
    · have hpf := h (k, a) hk
      simp only [List.filter_cons, hpf, Bool.false_eq_true, if_neg, not_false_iff]
      exact ih
    · by_cases hp : p (k, a)
      · simp only [List.filter_cons, hp, if_pos]
        simp only [List.lookup, beq_str_false (fun he => hk he.symm)]
        exact ih
      · simp only [List.filter_cons, hp, Bool.false_eq_true, if_neg, not_false_iff]
        exact ih

/-- Aggregated report with the Go zero value: day 0 is the zero-date
sentinel. -/
def zeroAgg : AggregatedReport :=
  { date := 0, nodes := 0, versionCount := [],
    performance := ⟨0, 0, 0, 0, 0⟩, blockStats := ⟨0, 0, 0, 0, 0, 0⟩, locations := [] }

/-- Simple aggregated report for day d used in concrete scenarios. -/
def aggOn (d : Nat) : AggregatedReport :=
  { date := d, nodes := 5, versionCount := [(("v1.0.0"), 100)],
    performance := ⟨1, 2, 0, 3, 4⟩, blockStats := ⟨1, 1, 1, 1, 1, 1⟩,
    locations := [(("DE"), 3)] }

/-- Store pre-populated with the aggregates of days 1..n. -/
def storeDays (n : Nat) : BlobStore :=
  { blobs := (List.range n).map (fun i => (aggregatedReportKey (i + 1), Blob.agg (aggOn (i + 1)))),
    failing := [] }

/-- Store with no blobs and a healthy backend. -/
def emptyStore : BlobStore := { blobs := [], failing := [] }

/-- Freshly constructed server snapshot, as in CLI.Run: zero latest report,
empty summary, header-only performance and block-stats tables. -/
def coldState : ServerState :=
  { cachedLatestReport := zeroAgg, cachedSummary := newSummary,
    cachedPerformance := newPerformance, cachedBlockstats := newBlockStats, cacheTime := 0 }

theorem refreshCacheLocked_error {store : BlobStore} {today : Nat} {e : String}
    (st : ServerState) (now : Int)
    (h : lastAggregatedReport store today = .error e) :
    refreshCacheLocked st store today now = (some e, st) := by
  unfold refreshCacheLocked
  rw [h]

/-- C1: with aggregates for days 1..5 pre-populated and a cold cache, a
single refresh does NOT perform a full rebuild: the code overwrites the
cached latest report with the fetched aggregate before testing the zero-date
sentinel, so the cold branch is not taken, no aggregate is folded, and all
three tables keep only their header rows (the spec requires one row per
stored aggregate). -/
theorem c1_cold_refresh_leaves_tables_empty :
    refreshCacheLocked coldState (storeDays 5) 6 7 =
      (none, { coldState with cachedLatestReport := aggOn 5, cacheTime := 7 }) ∧
    (refreshCacheLocked coldState (storeDays 5) 6 7).2.cachedSummary.rows = [] ∧
    (refreshCacheLocked coldState (storeDays 5) 6 7).2.cachedPerformance = newPerformance ∧
    (refreshCacheLocked coldState (storeDays 5) 6 7).2.cachedBlockstats = newBlockStats := by
  refine ⟨by decide, by decide, by decide, by decide⟩

/-- C2: folding aggregates one per day through repeated refresh calls is NOT
equivalent to one full fold over the same set: each refresh compares the
fetched report's date against the just-overwritten cached latest date (always
equal), so the incremental branch never fires and the tables stay at their
header rows, while cacheGraphData over the two aggregates appends two rows. -/
theorem c2_incremental_refresh_differs_from_full_fold :
    (refreshCacheLocked coldState (storeDays 1) 2 1).1 = none ∧
    (refreshCacheLocked (refreshCacheLocked coldState (storeDays 1) 2 1).2
        (storeDays 2) 3 2).1 = none ∧
    (refreshCacheLocked (refreshCacheLocked coldState (storeDays 1) 2 1).2
          (storeDays 2) 3 2).2.cachedPerformance ≠
      (cacheGraphData coldState [aggOn 1, aggOn 2]).cachedPerformance ∧
    (cacheGraphData coldState [aggOn 1, aggOn 2]).cachedPerformance.length = 3 := by
  refine ⟨by decide, by decide, by decide, by decide⟩

/-- C3 (amended): when a stale snapshot triggers a synchronous refresh and
the refresh fails, every query endpoint answers the request with an HTTP 500
"Template Error" instead of serving the last good snapshot; the snapshot
itself is left unchanged and the serving process continues. -/
theorem c3_handlers_error_on_failed_refresh
    (st : ServerState) (store : BlobStore) (today : Nat) (now : Int) (mn : Int) (e : String)
    (hstale : maxCacheTime < now - st.cacheTime)
    (hfail : lastAggregatedReport store today = .error e) :
    rootHandler st store today now ("/") = (Resp.httpError 500 ("Template Error"), st) ∧
    summaryHandler st store today now mn = (Resp.httpError 500 ("Template Error"), st) ∧
    performanceHandler st store today now = (Resp.httpError 500 ("Template Error"), st) ∧
    blockStatsHandler st store today now = (Resp.httpError 500 ("Template Error"), st) ∧
    locationsHandler st store today now = (Resp.httpError 500 ("Template Error"), st) := by
  have hr : refreshIfStale st store today now = (some e, st) := by
    unfold refreshIfStale
    rw [if_pos hstale]
    exact refreshCacheLocked_error st now hfail
  refine ⟨?_, ?_, ?_, ?_, ?_⟩ <;>
    simp [rootHandler, summaryHandler, performanceHandler, blockStatsHandler,
      locationsHandler, hr]

/-- C3 witness: concrete stale state and empty store at which the hypotheses
hold and all five endpoints answer with the 500 error. -/
theorem c3_handlers_error_on_failed_refresh_witness :
    (maxCacheTime < 7 - coldState.cacheTime ∧
      lastAggregatedReport emptyStore 5 = .error ("no aggregated report found")) ∧
    summaryHandler coldState emptyStore 5 7 0 =
      (Resp.httpError 500 ("Template Error"), coldState) :=
  ⟨⟨by decide, by decide⟩,
    (c3_handlers_error_on_failed_refresh coldState emptyStore 5 7 0
      ("no aggregated report found") (by decide) (by decide)).2.1⟩

/-- C3 counterexample: at a concrete stale snapshot with an unavailable
aggregate, the summary endpoint returns the 500 error rather than an answer
from the last good snapshot, contradicting the claim as stated. -/
theorem c3_counterexample_summary_handler_errors :
    summaryHandler coldState emptyStore 5 7 0 =
      (Resp.httpError 500 ("Template Error"), coldState) ∧
    ∀ t : List (List Cell), (summaryHandler coldState emptyStore 5 7 0).1 ≠ Resp.okTable t := by
  refine ⟨by decide, ?_⟩
  intro t h
  have : (summaryHandler coldState emptyStore 5 7 0).1 =
      Resp.httpError 500 ("Template Error") := by decide
  rw [this] at h
  exact Resp.noConfusion h

/-- C6 (amended): when lastAggregatedReport fails, refreshCacheLocked is a
complete no-op — tables, cached latest report AND the refresh timestamp are
all left unchanged — and the failure is propagated to the caller as an error
rather than being swallowed (the spec claims the timestamp is still stamped
and the call does not count as an error; the code returns early instead). -/
theorem c6_refresh_error_noop_and_propagated
    (st : ServerState) (store : BlobStore) (today : Nat) (now : Int) (e : String)
    (h : lastAggregatedReport store today = .error e) :
    refreshCacheLocked st store today now = (some e, st) :=
  refreshCacheLocked_error st now h

/-- C6 witness: concrete empty store at which the fetch fails and the refresh
returns the error with the state untouched. -/
theorem c6_refresh_error_noop_and_propagated_witness :
    lastAggregatedReport emptyStore 5 = .error ("no aggregated report found") ∧
    refreshCacheLocked coldState emptyStore 5 7 =
      (some ("no aggregated report found"), coldState) :=
  ⟨by decide,
    c6_refresh_error_noop_and_propagated coldState emptyStore 5 7
      ("no aggregated report found") (by decide)⟩

/-- C6 counterexample: at a concrete input where the fetch fails, the refresh
returns an error and the timestamp is NOT advanced to the current time,
contradicting the claim that the timestamp is still updated and that the
refresh does not count as an error. -/
theorem c6_counterexample_timestamp_not_updated :
    (refreshCacheLocked coldState emptyStore 5 7).1 ≠ none ∧
    (refreshCacheLocked coldState emptyStore 5 7).2.cacheTime ≠ 7 := by
  refine ⟨by decide, by decide⟩

/-- C7: putting the same (UTC day, uniqueID) usage report twice against a
healthy backend stores exactly one record: the first call finds no non-empty
blob at the computed key, succeeds and stores the JSON-encoded report; the
second finds the stored blob and fails with the "already exists" duplicate
outcome without writing anything. -/
theorem c7_put_usage_report_idempotent
    (store : BlobStore) (rep rep' : Report) (d : Nat)
    (hid : rep'.uniqueID = rep.uniqueID)
    (hnew : ∀ b, store.blobs.lookup (usageReportKey d rep.uniqueID) = some b → b = Blob.empty)
    (hok : usageReportKey d rep.uniqueID ∉ store.failing) :
    (putUsageReport store rep d).1 = none ∧
    (putUsageReport store rep d).2.blobs.lookup (usageReportKey d rep.uniqueID) =
      some (Blob.usage rep) ∧
    putUsageReport (putUsageReport store rep d).2 rep' d =
      (some ("already exists"), (putUsageReport store rep d).2) := by
  have h1 : putUsageReport store rep d =
      (none, { store with
          blobs := aset store.blobs (usageReportKey d rep.uniqueID) (Blob.usage rep) }) := by
    unfold putUsageReport putBlob
    cases hl : store.blobs.lookup (usageReportKey d rep.uniqueID) with
    | none => simp [getBlob, hok, hl]
    | some b =>
      have hb := hnew b hl
      subst hb
      simp [getBlob, hok, hl]
  refine ⟨by rw [h1], by rw [h1]; exact lookup_aset_self _ _ _, ?_⟩
  rw [h1]
  unfold putUsageReport
  rw [hid]
  simp [getBlob, hok, lookup_aset_self]

/-- C7 witness: a concrete report stored twice on the same day against an
empty store exercises every hypothesis and both outcomes. -/
theorem c7_put_usage_report_idempotent_witness :
    ((∀ b, emptyStore.blobs.lookup (usageReportKey 3 ("id-1")) = some b → b = Blob.empty) ∧
      usageReportKey 3 ("id-1") ∉ emptyStore.failing) ∧
    (putUsageReport emptyStore ⟨("id-1"), ("3"), ("1.2.3.4"), 3⟩ 3).1 = none ∧
    putUsageReport (putUsageReport emptyStore ⟨("id-1"), ("3"), ("1.2.3.4"), 3⟩ 3).2
        ⟨("id-1"), ("3"), ("1.2.3.4"), 3⟩ 3 =
      (some ("already exists"),
        (putUsageReport emptyStore ⟨("id-1"), ("3"), ("1.2.3.4"), 3⟩ 3).2) := by
  refine ⟨⟨by decide, by decide⟩, ?_, ?_⟩
  · exact (c7_put_usage_report_idempotent emptyStore
      ⟨("id-1"), ("3"), ("1.2.3.4"), 3⟩ ⟨("id-1"), ("3"), ("1.2.3.4"), 3⟩ 3 rfl
      (by decide) (by decide)).1
  · exact (c7_put_usage_report_idempotent emptyStore
      ⟨("id-1"), ("3"), ("1.2.3.4"), 3⟩ ⟨("id-1"), ("3"), ("1.2.3.4"), 3⟩ 3 rfl
      (by decide) (by decide)).2.2

/-- C8: lastAggregatedReport looks up exactly the aggregate key of the day
before the current day: when no blob is stored under that key it fails with
"no aggregated report found" (whatever other days are present), and when that
key holds an aggregate on a healthy backend it returns exactly that
aggregate. -/
theorem c8_last_aggregated_report_yesterday_exact
    (store : BlobStore) (today : Nat) :
    (store.blobs.lookup (aggregatedReportKey (today - 1)) = none →
      lastAggregatedReport store today = .error ("no aggregated report found")) ∧
    ∀ a : AggregatedReport,
      store.blobs.lookup (aggregatedReportKey (today - 1)) = some (Blob.agg a) →
      aggregatedReportKey (today - 1) ∉ store.failing →
      lastAggregatedReport store today = .ok a := by
  constructor
  · intro h
    unfold lastAggregatedReport getBlob
    by_cases hf : aggregatedReportKey (today - 1) ∈ store.failing
    · simp [hf]
    · simp [hf, h]
  · intro a h hf
    unfold lastAggregatedReport getBlob
    simp [hf, h, decodeAggregated]

/-- C8 witness: a store holding aggregates for two days ago and for today but
not for yesterday (today = day 5) fails with the no-aggregate error, while a
store holding yesterday's aggregate returns it. -/
theorem c8_last_aggregated_report_yesterday_exact_witness :
    ({ blobs := [(aggregatedReportKey 3, Blob.agg (aggOn 3)),
         (aggregatedReportKey 5, Blob.agg (aggOn 5))],
       failing := [] : BlobStore }.blobs.lookup (aggregatedReportKey 4) = none ∧
      lastAggregatedReport
        { blobs := [(aggregatedReportKey 3, Blob.agg (aggOn 3)),
            (aggregatedReportKey 5, Blob.agg (aggOn 5))], failing := [] } 5 =
        .error ("no aggregated report found")) ∧
    (storeDays 5).blobs.lookup (aggregatedReportKey 4) = some (Blob.agg (aggOn 4)) ∧
    lastAggregatedReport (storeDays 5) 5 = .ok (aggOn 4) := by
  refine ⟨⟨by decide, ?_⟩, by decide, ?_⟩
  · exact (c8_last_aggregated_report_yesterday_exact
      { blobs := [(aggregatedReportKey 3, Blob.agg (aggOn 3)),
          (aggregatedReportKey 5, Blob.agg (aggOn 5))], failing := [] } 5).1 (by decide)
  · exact (c8_last_aggregated_report_yesterday_exact (storeDays 5) 5).2 (aggOn 4)
      (by decide) (by decide)

/-- C10: every failure of the underlying Get — an absent key as well as a
failing backend — is collapsed by lastAggregatedReport into the same
"no aggregated report found" error, while a blob that fails to decode is
surfaced as the distinct unmarshal error. -/
theorem c10_get_failures_collapse_to_no_aggregate
    (store : BlobStore) (today : Nat) :
    ((store.blobs.lookup (aggregatedReportKey (today - 1)) = none ∨
        aggregatedReportKey (today - 1) ∈ store.failing) →
      lastAggregatedReport store today = .error ("no aggregated report found")) ∧
    (∀ b : Blob, aggregatedReportKey (today - 1) ∉ store.failing →
      store.blobs.lookup (aggregatedReportKey (today - 1)) = some b →
      decodeAggregated b = .error ("json unmarshal error") →
      lastAggregatedReport store today = .error ("json unmarshal error")) ∧
    ("json unmarshal error" : String) ≠ ("no aggregated report found") := by
  refine ⟨?_, ?_, by decide⟩
  · intro h
    unfold lastAggregatedReport getBlob
    rcases h with h | h
    · by_cases hf : aggregatedReportKey (today - 1) ∈ store.failing
      · simp [hf]
      · simp [hf, h]
    · simp [h]
  · intro b hf h hdec
    unfold lastAggregatedReport getBlob
    simp [hf, h, hdec]

/-- C10 witness: an absent key, a failing backend holding the key, and a junk
blob at the key, all at today = day 5. -/
theorem c10_get_failures_collapse_to_no_aggregate_witness :
    lastAggregatedReport emptyStore 5 = .error ("no aggregated report found") ∧
    lastAggregatedReport
        { blobs := [(aggregatedReportKey 4, Blob.agg (aggOn 4))],
          failing := [aggregatedReportKey 4] } 5 =
      .error ("no aggregated report found") ∧
    lastAggregatedReport { blobs := [(aggregatedReportKey 4, Blob.junk)], failing := [] } 5 =
      .error ("json unmarshal error") := by
  refine ⟨?_, ?_, ?_⟩
  · exact (c10_get_failures_collapse_to_no_aggregate emptyStore 5).1 (Or.inl (by decide))
  · exact (c10_get_failures_collapse_to_no_aggregate
      { blobs := [(aggregatedReportKey 4, Blob.agg (aggOn 4))],
        failing := [aggregatedReportKey 4] } 5).1 (Or.inr (by decide))
  · exact (c10_get_failures_collapse_to_no_aggregate
      { blobs := [(aggregatedReportKey 4, Blob.junk)], failing := [] } 5).2.1 Blob.junk
      (by decide) (by decide) (by decide)

theorem versions_lookup_setCount1 {s : Summary} {v : String} {i : Nat}
    (d w : String) (c : Int) (h : s.versions.lookup v = some i) :
    (setCount1 s d w c).versions.lookup v = some i := by
  unfold setCount1
  cases hw : s.versions.lookup w with
  | some j => simpa [hw] using h
  | none =>
    simp only [hw]
    rw [List.lookup_append]
    simp [h]

theorem versions_lookup_setCount {v : String} {i : Nat} (d : String)
    (counts : List (String × Int)) :
    ∀ s : Summary, s.versions.lookup v = some i →
      (setCount s d counts).versions.lookup v = some i := by
  induction counts with
  | nil => intro s h; exact h
  | cons vc t ih =>
    intro s h
    unfold setCount
    rw [List.foldl_cons]
    exact ih _ (versions_lookup_setCount1 d vc.1 vc.2 h)

theorem versions_setCount1_new {s : Summary} {w : String} (d : String) (c : Int)
    (h : s.versions.lookup w = none) :
    (setCount1 s d w c).versions = s.versions ++ [(w, s.versions.length)] := by
  unfold setCount1
  simp [h]

/-- Summary state holding one version "v1.0.0" with a single-day count of 60
folded for 2024-01-01. -/
def sumV60 : Summary := setCount newSummary ("2024-01-01") [(("v1.0.0"), 60)]

/-- Server snapshot whose cache is fresh (no refresh will trigger) and whose
summary table is sumV60. -/
def stFresh : ServerState :=
  { cachedLatestReport := zeroAgg, cachedSummary := sumV60,
    cachedPerformance := newPerformance, cachedBlockstats := newBlockStats, cacheTime := 0 }

/-- C5 (amended): folding never removes or reassigns an existing column index
(setCount is append-only: a version keeps its index and a new version is
appended with index equal to the current map size), and summary.filter leaves
the underlying rows of counts untouched — but filter destructively deletes
every version whose tracked maximum is below the threshold from the
version-index and maximum maps, so a later serialization (even with a lower
threshold) no longer sees those versions. -/
theorem c5_setcount_append_only_filter_destructive
    (s : Summary) (d : String) (counts : List (String × Int)) (v w : String)
    (i : Nat) (c mn : Int) :
    (s.versions.lookup v = some i →
      (setCount s d counts).versions.lookup v = some i) ∧
    (s.versions.lookup w = none →
      (setCount1 s d w c).versions = s.versions ++ [(w, s.versions.length)]) ∧
    (maxOf s v < mn → (filterSummary s mn).versions.lookup v = none) ∧
    (filterSummary s mn).rows = s.rows := by
  refine ⟨fun h => versions_lookup_setCount d counts s h,
    fun h => versions_setCount1_new d c h, fun h => ?_, rfl⟩
  apply lookup_filter_none_of_key
  intro x hx
  rw [hx]
  simp only [decide_eq_false_iff_not, not_not]
  exact h

/-- C5 witness: in sumV60 the version "v1.0.0" has index 0 and maximum 60;
folding another version keeps its index, filtering with threshold 100 removes
it from the index map while leaving the rows untouched. -/
theorem c5_setcount_append_only_filter_destructive_witness :
    (sumV60.versions.lookup ("v1.0.0") = some 0 ∧ maxOf sumV60 ("v1.0.0") < 100) ∧
    (setCount sumV60 ("2024-01-02") [(("v2.0.0"), 70)]).versions.lookup ("v1.0.0") =
      some 0 ∧
    (filterSummary sumV60 100).versions.lookup ("v1.0.0") = none ∧
    (filterSummary sumV60 100).rows = sumV60.rows :=
  ⟨⟨by decide, by decide⟩,
    (c5_setcount_append_only_filter_destructive sumV60 ("2024-01-02")
      [(("v2.0.0"), 70)] ("v1.0.0") ("w") 0 70 100).1 (by decide),
    (c5_setcount_append_only_filter_destructive sumV60 ("2024-01-02")
      [(("v2.0.0"), 70)] ("v1.0.0") ("w") 0 70 100).2.2.1 (by decide),
    (c5_setcount_append_only_filter_destructive sumV60 ("2024-01-02")
      [(("v2.0.0"), 70)] ("v1.0.0") ("w") 0 70 100).2.2.2⟩

/-- C5 counterexample: serving the summary once with threshold 100 deletes
the index assigned to "v1.0.0" (maximum 60), so a later serve with the lower
threshold 0 no longer emits the version even though its maximum exceeds the
serializer's own cutoff of 50 — the index assignment is not stable for the
process lifetime and serving is destructive. -/
theorem c5_counterexample_filter_removes_assigned_index :
    sumV60.versions.lookup ("v1.0.0") = some 0 ∧
    (summaryHandler stFresh emptyStore 1 0 100).2.cachedSummary.versions.lookup
      ("v1.0.0") = none ∧
    (summaryHandler (summaryHandler stFresh emptyStore 1 0 100).2 emptyStore 1 0 0).1 =
      Resp.okTable [[Cell.str ("Day")], [Cell.str ("2024-01-01")]] := by
  refine ⟨by decide, by decide, by decide⟩

theorem summaryCell_eq {s : Summary} {v : String} {idx : Nat} (d : String)
    (h : s.versions.lookup v = some idx) :
    summaryCell s d v =
      if 0 < cellVal s d v then Cell.int (cellVal s d v) else Cell.null := by
  unfold summaryCell cellVal
  rw [h]
  simp only [Option.getD_some]
  rcases Nat.lt_or_ge idx ((s.rows.lookup d).getD []).length with hlt | hge
  · simp [hlt]
  · have h0 : ((s.rows.lookup d).getD []).getD idx 0 = 0 := by
      rw [List.getD_eq_getElem?_getD, List.getElem?_eq_none (by omega)]
      rfl
    rw [h0]
    simp

theorem orderedInsert_of_forall {α : Type} {r : α → α → Prop} [DecidableRel r]
    {a : α} {l : List α} (h : ∀ x ∈ l, r a x) : List.orderedInsert r a l = a :: l := by
  cases l with
  | nil => rfl
  | cons b t =>
    unfold List.orderedInsert
    rw [if_pos (h b (List.mem_cons_self b t))]

theorem filter_orderedInsert {α : Type} {r : α → α → Prop} [DecidableRel r] [IsTrans α r]
    (p : α → Bool) (a : α) :
    ∀ l : List α, l.Sorted r →
      (List.orderedInsert r a l).filter p =
        if p a then List.orderedInsert r a (l.filter p) else l.filter p := by
  intro l
  induction l with
  | nil =>
    intro _
    by_cases hp : p a <;> simp [List.orderedInsert, List.filter_cons, hp]
  | cons b t ih =>
    intro hs
    have hst : t.Sorted r := (List.sorted_cons.mp hs).2
    have hbt : ∀ x ∈ t, r b x := (List.sorted_cons.mp hs).1
    by_cases hr : r a b
    · simp only [List.orderedInsert, if_pos hr]
      by_cases hp : p a
      · have hall : ∀ x ∈ (b :: t).filter p, r a x := by
          intro x hx
          have hxm : x ∈ b :: t := List.mem_of_mem_filter hx
          rcases List.mem_cons.mp hxm with he | hm
          · exact he ▸ hr
          · exact Trans.trans hr (hbt x hm)
        rw [if_pos hp, orderedInsert_of_forall hall, List.filter_cons, if_pos hp]
      · rw [if_neg hp, List.filter_cons, if_neg hp]
    · simp only [List.orderedInsert, if_neg hr]
      rw [List.filter_cons, List.filter_cons]
      by_cases hpb : p b
      · simp only [hpb, if_pos]
        rw [ih hst]
        by_cases hp : p a
        · rw [if_pos hp, if_pos hp]
          simp [List.orderedInsert, if_neg hr]
        · rw [if_neg hp, if_neg hp]
      · simp only [hpb, Bool.false_eq_true, if_neg, not_false_iff]
        exact ih hst

theorem filter_insertionSort {α : Type} (r : α → α → Prop) [DecidableRel r] [IsTotal α r]
    [IsTrans α r] (p : α → Bool) (l : List α) :
    (List.insertionSort r l).filter p = List.insertionSort r (l.filter p) := by
  induction l with
  | nil => rfl
  | cons a t ih =>
    simp only [List.insertionSort]
    rw [filter_orderedInsert p a _ (List.sorted_insertionSort r t), ih, List.filter_cons]
    by_cases hp : p a
    · rw [if_pos hp, if_pos hp]
      rfl
    · rw [if_neg hp, if_neg hp]

theorem map_fst_filter_key {α : Type} (l : List (String × α)) (q : String → Bool) :
    (l.filter (fun p => q p.1)).map Prod.fst = (l.map Prod.fst).filter q := by
  induction l with
  | nil => rfl
  | cons a t ih =>
    rw [List.filter_cons, List.map_cons, List.filter_cons]
    by_cases h : q a.1
    · simp only [h, if_pos, List.map_cons, ih]
    · simp only [h, Bool.false_eq_true, if_neg, not_false_iff, ih]

theorem lookup_isSome_of_mem_keys {α : Type} :
    ∀ {l : List (String × α)} {v : String}, v ∈ l.map Prod.fst →
      ∃ a, l.lookup v = some a := by
  intro l
  induction l with
  | nil => intro v h; simp at h
  | cons q t ih =>
    obtain ⟨k, b⟩ := q
    intro v h
    by_cases hv : v = k
    · subst hv
      exact ⟨b, by simp [List.lookup]⟩
    · rw [List.map_cons] at h
      rcases List.mem_cons.mp h with he | hm
      · exact absurd he hv
      · obtain ⟨a, ha⟩ := ih hm
        exact ⟨a, by simp only [List.lookup, beq_str_false hv]; exact ha⟩

theorem maxOf_filterSummary {s : Summary} {mn : Int} {v : String}
    (hm : (s.max.map Prod.fst).Nodup) (hge : mn ≤ maxOf s v) :
    maxOf (filterSummary s mn) v = maxOf s v := by
  unfold maxOf filterSummary
  simp only
  rw [lookup_filter_nodup _ _ _ hm]
  cases hl : s.max.lookup v with
  | none => simp
  | some m =>
    have hmn : ¬ m < mn := by
      have hmv : maxOf s v = m := by unfold maxOf; rw [hl]; rfl
      omega
    simp [hl, hmn]

theorem versions_lookup_filterSummary {s : Summary} {mn : Int} {v : String} {idx : Nat}
    (hv : (s.versions.map Prod.fst).Nodup) (h : s.versions.lookup v = some idx)
    (hge : mn ≤ maxOf s v) :
    (filterSummary s mn).versions.lookup v = some idx := by
  unfold filterSummary
  simp only
  rw [lookup_filter_nodup _ _ _ hv, h]
  have hmn : ¬ maxOf s v < mn := by omega
  unfold maxOf at hmn
  simp [hmn]

theorem versions_lookup_filterSummary_none {s : Summary} {mn : Int} {v : String}
    (hv : (s.versions.map Prod.fst).Nodup) (h : s.versions.lookup v = none) :
    (filterSummary s mn).versions.lookup v = none := by
  unfold filterSummary
  simp only
  rw [lookup_filter_nodup _ _ _ hv, h]

theorem cellVal_filterSummary {s : Summary} {mn : Int} {v : String} (d : String)
    (hv : (s.versions.map Prod.fst).Nodup) (hge : mn ≤ maxOf s v) :
    cellVal (filterSummary s mn) d v = cellVal s d v := by
  unfold cellVal
  cases h : s.versions.lookup v with
  | none => rw [versions_lookup_filterSummary_none hv h]
  | some idx =>
    rw [versions_lookup_filterSummary hv h hge]
    simp only [filterSummary]

/-- Serialization required by the amended C4 claim, built from the spec's
wording over the abstract summary content: the active versions are those
whose tracked maximum passes both the caller's threshold (the filter step)
and the serializer's fixed cutoff of 50, sorted by the version comparison;
one row per date in lexical order; each cell is the stored count when present
and positive, else null. -/
def specSummaryTable (s : Summary) (mn : Int) : List (List Cell) :=
  let vs := List.insertionSort verLE
    ((s.versions.map Prod.fst).filter (fun v => decide (mn ≤ maxOf s v ∧ 50 < maxOf s v)))
  let dates := List.insertionSort strLE (s.rows.map Prod.fst)
  (Cell.str ("Day") :: vs.map Cell.str) ::
    dates.map (fun d => Cell.str d ::
      vs.map (fun v => if 0 < cellVal s d v then Cell.int (cellVal s d v) else Cell.null))

/-- C4 (amended): serving the summary with a caller threshold filters the
state and then serializes it, and the emitted columns are exactly the known
versions whose tracked maximum is at least the caller's threshold AND
strictly exceeds the serializer's own hard-coded cutoff of 50 (so threshold 0
does NOT mean "no filter"); each data cell is the stored count for the
(date, version) pair when present and positive, and otherwise null, never the
numeral zero. -/
theorem c4_marshal_filter_double_threshold (s : Summary) (mn : Int)
    (hv : (s.versions.map Prod.fst).Nodup) (hm : (s.max.map Prod.fst).Nodup) :
    marshalJSON (filterSummary s mn) = specSummaryTable s mn := by
  have hrows : (filterSummary s mn).rows = s.rows := rfl
  have hkeys : (filterSummary s mn).versions.map Prod.fst =
      (s.versions.map Prod.fst).filter
        (fun v => decide (¬ (s.max.lookup v).getD 0 < mn)) := by
    simp only [filterSummary]
    exact map_fst_filter_key s.versions
      (fun v => decide (¬ (s.max.lookup v).getD 0 < mn))
  have hVV : (List.insertionSort verLE ((filterSummary s mn).versions.map Prod.fst)).filter
        (fun v => decide (50 < ((filterSummary s mn).max.lookup v).getD 0)) =
      List.insertionSort verLE ((s.versions.map Prod.fst).filter
        (fun v => decide (mn ≤ maxOf s v ∧ 50 < maxOf s v))) := by
    rw [hkeys]
    have hcong : ∀ v ∈ List.insertionSort verLE ((s.versions.map Prod.fst).filter
          (fun v => decide (¬ (s.max.lookup v).getD 0 < mn))),
        (decide (50 < ((filterSummary s mn).max.lookup v).getD 0)) =
          (decide (50 < maxOf s v)) := by
      intro v hvmem
      have hvL : v ∈ (s.versions.map Prod.fst).filter
          (fun v => decide (¬ (s.max.lookup v).getD 0 < mn)) :=
        (List.perm_insertionSort verLE _).mem_iff.mp hvmem
      have hq := List.of_mem_filter hvL
      have hge : mn ≤ maxOf s v := by
        have hq' := of_decide_eq_true hq
        unfold maxOf
        omega
      have hmx := maxOf_filterSummary hm hge
      unfold maxOf at hmx ⊢
      rw [hmx]
    rw [List.filter_congr hcong, filter_insertionSort verLE _ _]
    congr 1
    rw [List.filter_filter]
    apply List.filter_congr
    intro v hvmem
    unfold maxOf
    by_cases h1 : mn ≤ (s.max.lookup v).getD 0 <;>
      by_cases h2 : 50 < (s.max.lookup v).getD 0 <;>
        simp [h1, h2]
  simp only [marshalJSON, marshalJSONWith, specSummaryTable]
  rw [hVV, hrows]
  congr 1
  apply List.map_congr_left
  intro d hd
  congr 1
  apply List.map_congr_left
  intro v hvmem
  have hvfil : v ∈ (s.versions.map Prod.fst).filter
      (fun v => decide (mn ≤ maxOf s v ∧ 50 < maxOf s v)) :=
    (List.perm_insertionSort verLE _).mem_iff.mp hvmem
  have hvkeys : v ∈ s.versions.map Prod.fst := List.mem_of_mem_filter hvfil
  have hpb := List.of_mem_filter hvfil
  simp only [decide_eq_true_eq] at hpb
  have hprop := hpb
  obtain ⟨idx, hidx⟩ := lookup_isSome_of_mem_keys hvkeys
  have hge : mn ≤ maxOf s v := hprop.1
  rw [summaryCell_eq d (versions_lookup_filterSummary hv hidx hge)]
  rw [cellVal_filterSummary d hv hge]

/-- Summary state holding versions "v1.0.0" (maximum 10) and "v2.0.0"
(maximum 100) folded for one day. -/
def sumTwoVers : Summary :=
  setCount newSummary ("2024-01-01") [(("v1.0.0"), 10), (("v2.0.0"), 100)]

/-- C4 witness: for the spec's own example (maxima 10 and 100, threshold 50)
the serialization keeps only the v2.0.0 column and its cell is the stored
count, as the amended claim computes. -/
theorem c4_marshal_filter_double_threshold_witness :
    ((sumTwoVers.versions.map Prod.fst).Nodup ∧ (sumTwoVers.max.map Prod.fst).Nodup) ∧
    marshalJSON (filterSummary sumTwoVers 50) = specSummaryTable sumTwoVers 50 ∧
    specSummaryTable sumTwoVers 50 =
      [[Cell.str ("Day"), Cell.str ("v2.0.0")], [Cell.str ("2024-01-01"), Cell.int 100]] :=
  ⟨⟨by decide, by decide⟩,
    c4_marshal_filter_double_threshold sumTwoVers 50 (by decide) (by decide), by decide⟩

/-- Summary state holding the single version "v0.1.0" with maximum 10. -/
def sumLowVer : Summary := setCount newSummary ("2024-01-01") [(("v0.1.0"), 10)]

/-- C4 counterexample: with caller threshold 0 the claim requires every known
version to be emitted, but the serializer's hard-coded cutoff of 50 drops the
known version "v0.1.0" (maximum 10): the emitted header has no version
columns at all. -/
theorem c4_counterexample_threshold_zero_not_unfiltered :
    sumLowVer.versions.lookup ("v0.1.0") = some 0 ∧
    marshalJSON (filterSummary sumLowVer 0) =
      [[Cell.str ("Day")], [Cell.str ("2024-01-01")]] := by
  refine ⟨by decide, by decide⟩

theorem getD_set_self {l : List Int} {i : Nat} (a : Int) (h : i < l.length) :
    (l.set i a).getD i 0 = a := by
  rw [List.getD_eq_getElem?_getD, List.getElem?_set_self h]
  rfl

theorem getD_set_ne {l : List Int} {i j : Nat} (a : Int) (h : i ≠ j) :
    (l.set i a).getD j 0 = l.getD j 0 := by
  rw [List.getD_eq_getElem?_getD, List.getElem?_set_ne h, ← List.getD_eq_getElem?_getD]

theorem getD_append_replicate_zero (l : List Int) (n j : Nat) :
    (l ++ List.replicate n 0).getD j 0 = l.getD j 0 := by
  rw [List.getD_eq_getElem?_getD, List.getD_eq_getElem?_getD, List.getElem?_append]
  by_cases h : j < l.length
  · rw [if_pos h]
  · rw [if_neg h, List.getElem?_eq_none (le_of_not_lt h)]
    cases hr : (List.replicate n (0 : Int))[j - l.length]? with
    | none => rfl
    | some x =>
      have hx : x = 0 := by
        have hm : x ∈ List.replicate n (0 : Int) := by
          have hlt : j - l.length < n := by
            by_contra hge
            rw [List.getElem?_eq_none (by
              rw [List.length_replicate]; omega)] at hr
            exact Option.noConfusion hr
          have hsome := List.getElem?_eq_getElem
            (show j - l.length < (List.replicate n (0 : Int)).length by
              rw [List.length_replicate]
              exact hlt)
          rw [hsome] at hr
          cases hr
          exact List.getElem_mem _
        exact List.eq_of_mem_replicate hm
      rw [hx]
      rfl

theorem lookup_mem {α : Type} :
    ∀ {l : List (String × α)} {k : String} {a : α}, l.lookup k = some a → (k, a) ∈ l := by
  intro l
  induction l with
  | nil => intro k a h; simp [List.lookup] at h
  | cons q t ih =>
    obtain ⟨k₀, a₀⟩ := q
    intro k a h
    by_cases hk : k = k₀
    · subst hk
      simp only [List.lookup, beq_self_eq_true] at h
      cases h
      exact List.mem_cons_self _ _
    · simp only [List.lookup, beq_str_false hk] at h
      exact List.mem_cons_of_mem _ (ih h)

theorem keys_aset {α : Type} :
    ∀ (l : List (String × α)) (k : String) (v : α),
      (aset l k v).map Prod.fst =
        if (l.lookup k).isSome then l.map Prod.fst else l.map Prod.fst ++ [k] := by
  intro l
  induction l with
  | nil => intro k v; simp [aset, List.lookup]
  | cons q t ih =>
    obtain ⟨k₀, a₀⟩ := q
    intro k v
    by_cases hk : k₀ = k
    · subst hk
      simp [aset, List.lookup]
    · simp only [aset, if_neg hk, List.map_cons, List.lookup,
        beq_str_false (fun he => hk he.symm), ih]
      by_cases hs : (t.lookup k).isSome
      · rw [if_pos hs, if_pos hs]
      · rw [if_neg hs, if_neg hs]
        rfl

theorem mem_aset {α : Type} :
    ∀ {l : List (String × α)} {k : String} {v : α} {x : String × α},
      x ∈ aset l k v → x = (k, v) ∨ x ∈ l := by
  intro l
  induction l with
  | nil =>
    intro k v x h
    simp [aset] at h
    exact Or.inl h
  | cons q t ih =>
    obtain ⟨k₀, a₀⟩ := q
    intro k v x h
    by_cases hk : k₀ = k
    · subst hk
      simp only [aset, if_pos rfl] at h
      rcases List.mem_cons.mp h with he | hm
      · exact Or.inl he
      · exact Or.inr (List.mem_cons_of_mem _ hm)
    · simp only [aset, if_neg hk] at h
      rcases List.mem_cons.mp h with he | hm
      · exact Or.inr (he ▸ List.mem_cons_self _ _)
      · rcases ih hm with h' | h'
        · exact Or.inl h'
        · exact Or.inr (List.mem_cons_of_mem _ h')

/-- Well-formedness invariant of a summary state reachable by folding: the
version keys are distinct, the assigned column indices are exactly
0, 1, ..., n-1 in insertion order, the date keys are distinct, and every row
is no longer than the number of assigned columns. -/
def SummaryWF (s : Summary) : Prop :=
  (s.versions.map Prod.fst).Nodup ∧
  s.versions.map Prod.snd = List.range s.versions.length ∧
  (s.rows.map Prod.fst).Nodup ∧
  (∀ r ∈ s.rows, r.2.length ≤ s.versions.length)

theorem summaryWF_new : SummaryWF newSummary := by
  refine ⟨List.nodup_nil, rfl, List.nodup_nil, ?_⟩
  intro r hr
  simp [newSummary] at hr

theorem lookup_lt_length {s : Summary} (hWF : SummaryWF s) {v : String} {i : Nat}
    (h : s.versions.lookup v = some i) : i < s.versions.length := by
  have hm : (v, i) ∈ s.versions := lookup_mem h
  have : i ∈ s.versions.map Prod.snd := List.mem_map_of_mem Prod.snd hm
  rw [hWF.2.1] at this
  exact List.mem_range.mp this

theorem nodup_snd_key_eq {α β : Type} :
    ∀ {l : List (α × β)}, (l.map Prod.snd).Nodup →
      ∀ {a b : α} {i : β}, (a, i) ∈ l → (b, i) ∈ l → a = b := by
  intro l
  induction l with
  | nil => intro _ a b i h; simp at h
  | cons q t ih =>
    intro hnd a b i ha hb
    rw [List.map_cons, List.nodup_cons] at hnd
    rcases List.mem_cons.mp ha with hea | hma
    · rcases List.mem_cons.mp hb with heb | hmb
      · have : (a, i) = (b, i) := hea.trans heb.symm
        exact congrArg Prod.fst this
      · exfalso
        apply hnd.1
        have hmem : i ∈ List.map Prod.snd t := List.mem_map_of_mem Prod.snd hmb
        rw [← hea]
        exact hmem
    · rcases List.mem_cons.mp hb with heb | hmb
      · exfalso
        apply hnd.1
        have hmem : i ∈ List.map Prod.snd t := List.mem_map_of_mem Prod.snd hma
        rw [← heb]
        exact hmem
      · exact ih hnd.2 hma hmb

theorem lookup_snd_inj {s : Summary} (hWF : SummaryWF s) {a b : String} {i : Nat}
    (ha : s.versions.lookup a = some i) (hb : s.versions.lookup b = some i) : a = b :=
  nodup_snd_key_eq (by rw [hWF.2.1]; exact List.nodup_range _)
    (lookup_mem ha) (lookup_mem hb)

/-- Column index that setCount1 uses for a version: the assigned index when
present, otherwise the next free index (the current size). -/
def assignedIdx (s : Summary) (v : String) : Nat :=
  match s.versions.lookup v with
  | some i => i
  | none => s.versions.length

/-- Row growth performed by setCount1 before writing at a column index. -/
def padRow (row : List Int) (idx : Nat) : List Int :=
  if row.length ≤ idx then row ++ List.replicate (idx + 1 - row.length) 0 else row

theorem setCount1_rows (s : Summary) (d v : String) (c : Int) :
    (setCount1 s d v c).rows =
      aset s.rows d
        ((padRow ((s.rows.lookup d).getD []) (assignedIdx s v)).set (assignedIdx s v) c) := by
  unfold setCount1 assignedIdx padRow
  cases h : s.versions.lookup v <;> simp [h]

theorem setCount1_versions_of_some {s : Summary} {v : String} {i : Nat} (d : String) (c : Int)
    (h : s.versions.lookup v = some i) : (setCount1 s d v c).versions = s.versions := by
  unfold setCount1
  simp [h]

theorem setCount1_versions_lookup (s : Summary) (d v : String) (c : Int) :
    (setCount1 s d v c).versions.lookup v = some (assignedIdx s v) := by
  unfold assignedIdx
  cases h : s.versions.lookup v with
  | some i => rw [setCount1_versions_of_some d c h, h]
  | none =>
    rw [versions_setCount1_new d c h, List.lookup_append, h]
    simp [List.lookup]

theorem setCount1_versions_lookup_ne {s : Summary} {v w : String} (d : String) (c : Int)
    (hw : w ≠ v) : (setCount1 s d v c).versions.lookup w = s.versions.lookup w := by
  cases h : s.versions.lookup v with
  | some i => rw [setCount1_versions_of_some d c h]
  | none =>
    rw [versions_setCount1_new d c h, List.lookup_append]
    simp [List.lookup, beq_str_false hw]

theorem maxOf_setCount1 (s : Summary) (d v : String) (c : Int) (w : String) :
    maxOf (setCount1 s d v c) w =
      if w = v ∧ maxOf s v < c then c else maxOf s w := by
  have hmax : (setCount1 s d v c).max =
      if (s.max.lookup v).getD 0 < c then aset s.max v c else s.max := by
    unfold setCount1
    cases h : s.versions.lookup v <;> simp [h]
  unfold maxOf
  rw [hmax]
  by_cases hlt : (s.max.lookup v).getD 0 < c
  · rw [if_pos hlt]
    by_cases hw : w = v
    · subst hw
      rw [lookup_aset_self, if_pos ⟨rfl, hlt⟩]
      rfl
    · rw [lookup_aset_ne s.max c hw, if_neg (fun hc => hw hc.1)]
  · rw [if_neg hlt, if_neg (fun hc => hlt hc.2)]

theorem padRow_lt_length (row : List Int) (idx : Nat) : idx < (padRow row idx).length := by
  unfold padRow
  by_cases h : row.length ≤ idx
  · rw [if_pos h, List.length_append, List.length_replicate]
    omega
  · rw [if_neg h]
    omega

theorem getD_padRow (row : List Int) (idx j : Nat) :
    (padRow row idx).getD j 0 = row.getD j 0 := by
  unfold padRow
  by_cases h : row.length ≤ idx
  · rw [if_pos h]
    exact getD_append_replicate_zero row _ j
  · rw [if_neg h]

theorem getD_zero_of_le {l : List Int} {j : Nat} (h : l.length ≤ j) : l.getD j 0 = 0 := by
  rw [List.getD_eq_getElem?_getD, List.getElem?_eq_none h]
  rfl

theorem row_length_le {s : Summary} (hWF : SummaryWF s) (d : String) :
    ((s.rows.lookup d).getD []).length ≤ s.versions.length := by
  cases h : s.rows.lookup d with
  | none => simp
  | some r => exact hWF.2.2.2 (d, r) (lookup_mem h)

theorem cellVal_eq_lookup_getD (s : Summary) (d w : String) :
    cellVal s d w =
      match s.versions.lookup w with
      | some idx => ((s.rows.lookup d).getD []).getD idx 0
      | none => 0 := rfl

theorem cellVal_setCount1 {s : Summary} (hWF : SummaryWF s) (d v : String) (c : Int)
    (d' w : String) :
    cellVal (setCount1 s d v c) d' w =
      if d' = d ∧ w = v then c else cellVal s d' w := by
  by_cases hw : w = v
  · subst hw
    rw [cellVal_eq_lookup_getD, setCount1_versions_lookup, setCount1_rows]
    by_cases hd : d' = d
    · subst hd
      rw [lookup_aset_self]
      simp only [Option.getD_some]
      rw [getD_set_self c (padRow_lt_length _ _)]
      simp
    · rw [lookup_aset_ne s.rows _ hd, if_neg (fun hc => hd hc.1)]
      rw [cellVal_eq_lookup_getD]
      unfold assignedIdx
      cases h : s.versions.lookup w with
      | some i => rfl
      | none =>
        simp only
        exact getD_zero_of_le (row_length_le hWF d')
  · rw [cellVal_eq_lookup_getD, setCount1_versions_lookup_ne d c hw, if_neg (fun hc => hw hc.2)]
    rw [cellVal_eq_lookup_getD]
    cases h : s.versions.lookup w with
    | some j =>
      simp only
      by_cases hd : d' = d
      · subst hd
        rw [setCount1_rows, lookup_aset_self]
        simp only [Option.getD_some]
        have hne : assignedIdx s v ≠ j := by
          unfold assignedIdx
          cases hv : s.versions.lookup v with
          | some i =>
            simp only
            intro hc
            exact hw (lookup_snd_inj hWF h (hv.trans (congrArg some hc)))
          | none =>
            simp only
            have := lookup_lt_length hWF h
            omega
        rw [getD_set_ne c hne, getD_padRow]
      · rw [setCount1_rows, lookup_aset_ne s.rows _ hd]
    | none =>
      simp only

theorem rowKeys_setCount1 (s : Summary) (d v : String) (c : Int) :
    (setCount1 s d v c).rows.map Prod.fst =
      if (s.rows.lookup d).isSome then s.rows.map Prod.fst
      else s.rows.map Prod.fst ++ [d] := by
  rw [setCount1_rows, keys_aset]

theorem versions_length_setCount1 (s : Summary) (d v : String) (c : Int) :
    (setCount1 s d v c).versions.length =
      if (s.versions.lookup v).isSome then s.versions.length
      else s.versions.length + 1 := by
  cases h : s.versions.lookup v with
  | some i => rw [setCount1_versions_of_some d c h]; simp [h]
  | none => rw [versions_setCount1_new d c h]; simp [h]

theorem summaryWF_setCount1 {s : Summary} (hWF : SummaryWF s) (d v : String) (c : Int) :
    SummaryWF (setCount1 s d v c) := by
  have hlen : s.versions.length ≤ (setCount1 s d v c).versions.length := by
    rw [versions_length_setCount1]
    by_cases h : (s.versions.lookup v).isSome
    · rw [if_pos h]
    · rw [if_neg h]; omega
  refine ⟨?_, ?_, ?_, ?_⟩
  · cases h : s.versions.lookup v with
    | some i => rw [setCount1_versions_of_some d c h]; exact hWF.1
    | none =>
      rw [versions_setCount1_new d c h, List.map_append]
      rw [List.nodup_append]
      refine ⟨hWF.1, List.nodup_singleton v, ?_⟩
      intro x hx hx'
      simp only [List.map_cons, List.map_nil, List.mem_singleton] at hx'
      subst hx'
      obtain ⟨a, ha⟩ := lookup_isSome_of_mem_keys hx
      rw [h] at ha
      exact Option.noConfusion ha
  · cases h : s.versions.lookup v with
    | some i => rw [setCount1_versions_of_some d c h]; exact hWF.2.1
    | none =>
      rw [versions_setCount1_new d c h, List.map_append, List.length_append]
      rw [hWF.2.1]
      simp [List.range_succ]
  · rw [rowKeys_setCount1]
    by_cases h : (s.rows.lookup d).isSome
    · rw [if_pos h]; exact hWF.2.2.1
    · rw [if_neg h]
      rw [List.nodup_append]
      refine ⟨hWF.2.2.1, List.nodup_singleton d, ?_⟩
      intro x hx hx'
      simp only [List.mem_singleton] at hx'
      subst hx'
      obtain ⟨a, ha⟩ := lookup_isSome_of_mem_keys hx
      rw [ha] at h
      simp at h
  · intro r hr
    rw [setCount1_rows] at hr
    rcases mem_aset hr with he | hm
    · subst he
      simp only [List.length_set]
      have hidx : assignedIdx s v < (setCount1 s d v c).versions.length := by
        unfold assignedIdx
        rw [versions_length_setCount1]
        cases h : s.versions.lookup v with
        | some i =>
          simp only [h, Option.isSome_some, if_pos]
          exact lookup_lt_length hWF h
        | none => simp [h]
      have hrow : ((s.rows.lookup d).getD []).length ≤ s.versions.length :=
        row_length_le hWF d
      unfold padRow
      by_cases hp : ((s.rows.lookup d).getD []).length ≤ assignedIdx s v
      · rw [if_pos hp, List.length_append, List.length_replicate]
        omega
      · rw [if_neg hp]
        omega
    · exact le_trans (hWF.2.2.2 r hm) hlen

theorem lookup_isSome_iff {α : Type} (l : List (String × α)) (v : String) :
    (l.lookup v).isSome ↔ v ∈ l.map Prod.fst := by
  constructor
  · intro h
    obtain ⟨a, ha⟩ := Option.isSome_iff_exists.mp h
    exact mem_keys_of_lookup_some ha
  · intro h
    obtain ⟨a, ha⟩ := lookup_isSome_of_mem_keys h
    rw [ha]
    rfl

theorem keys_setCount1 (s : Summary) (d v : String) (c : Int) :
    (setCount1 s d v c).versions.map Prod.fst =
      if (s.versions.lookup v).isSome then s.versions.map Prod.fst
      else s.versions.map Prod.fst ++ [v] := by
  cases h : s.versions.lookup v with
  | some i => rw [setCount1_versions_of_some d c h]; simp [h]
  | none => rw [versions_setCount1_new d c h]; simp [h]

/-- Abstract content of a summary state, invariant under the iteration-order
nondeterminism of the fold: the set of known versions, the per-version
maximum, the per-(date, version) stored count, and the set of known dates. -/
def absEq (s t : Summary) : Prop :=
  (s.versions.map Prod.fst).Perm (t.versions.map Prod.fst) ∧
  (∀ v, maxOf s v = maxOf t v) ∧
  (∀ d v, cellVal s d v = cellVal t d v) ∧
  (s.rows.map Prod.fst).Perm (t.rows.map Prod.fst)

theorem absEq_refl (s : Summary) : absEq s s :=
  ⟨List.Perm.refl _, fun _ => rfl, fun _ _ => rfl, List.Perm.refl _⟩

theorem absEq_trans {s t u : Summary} (h₁ : absEq s t) (h₂ : absEq t u) : absEq s u :=
  ⟨h₁.1.trans h₂.1, fun v => (h₁.2.1 v).trans (h₂.2.1 v),
    fun d v => (h₁.2.2.1 d v).trans (h₂.2.2.1 d v), h₁.2.2.2.trans h₂.2.2.2⟩

theorem absEq_setCount1 {s t : Summary} (h : absEq s t) (hWFs : SummaryWF s)
    (hWFt : SummaryWF t) (d v : String) (c : Int) :
    absEq (setCount1 s d v c) (setCount1 t d v c) := by
  obtain ⟨hkeys, hmax, hcell, hdates⟩ := h
  refine ⟨?_, ?_, ?_, ?_⟩
  · rw [keys_setCount1, keys_setCount1]
    by_cases hv : (s.versions.lookup v).isSome
    · have hvt : (t.versions.lookup v).isSome := by
        rw [lookup_isSome_iff] at hv ⊢
        exact hkeys.mem_iff.mp hv
      rw [if_pos hv, if_pos hvt]
      exact hkeys
    · have hvt : ¬ (t.versions.lookup v).isSome := by
        rw [lookup_isSome_iff] at hv ⊢
        exact fun hc => hv (hkeys.mem_iff.mpr hc)
      rw [if_neg hv, if_neg hvt]
      exact hkeys.append_right [v]
  · intro w
    rw [maxOf_setCount1, maxOf_setCount1, hmax v, hmax w]
  · intro d' w
    rw [cellVal_setCount1 hWFs, cellVal_setCount1 hWFt, hcell d' w]
  · rw [rowKeys_setCount1, rowKeys_setCount1]
    by_cases hd : (s.rows.lookup d).isSome
    · have hdt : (t.rows.lookup d).isSome := by
        rw [lookup_isSome_iff] at hd ⊢
        exact hdates.mem_iff.mp hd
      rw [if_pos hd, if_pos hdt]
      exact hdates
    · have hdt : ¬ (t.rows.lookup d).isSome := by
        rw [lookup_isSome_iff] at hd ⊢
        exact fun hc => hd (hdates.mem_iff.mpr hc)
      rw [if_neg hd, if_neg hdt]
      exact hdates.append_right [d]

theorem summaryWF_setCount {d : String} :
    ∀ (cs : List (String × Int)) {s : Summary}, SummaryWF s →
      SummaryWF (setCount s d cs) := by
  intro cs
  induction cs with
  | nil => intro s h; exact h
  | cons x l ih =>
    intro s h
    have e : setCount s d (x :: l) = setCount (setCount1 s d x.1 x.2) d l := rfl
    rw [e]
    exact ih (summaryWF_setCount1 h d x.1 x.2)

theorem absEq_setCount_list {d : String} :
    ∀ (cs : List (String × Int)) {s t : Summary}, absEq s t → SummaryWF s →
      SummaryWF t → absEq (setCount s d cs) (setCount t d cs) := by
  intro cs
  induction cs with
  | nil => intro s t h _ _; exact h
  | cons x l ih =>
    intro s t h hs ht
    have e1 : setCount s d (x :: l) = setCount (setCount1 s d x.1 x.2) d l := rfl
    have e2 : setCount t d (x :: l) = setCount (setCount1 t d x.1 x.2) d l := rfl
    rw [e1, e2]
    exact ih (absEq_setCount1 h hs ht d x.1 x.2)
      (summaryWF_setCount1 hs d x.1 x.2) (summaryWF_setCount1 ht d x.1 x.2)

theorem absEq_setCount1_swap {s : Summary} (hWF : SummaryWF s) (d : String)
    {a b : String} (hab : a ≠ b) (ca cb : Int) :
    absEq (setCount1 (setCount1 s d a ca) d b cb)
      (setCount1 (setCount1 s d b cb) d a ca) := by
  have hWFa := summaryWF_setCount1 hWF d a ca
  have hWFb := summaryWF_setCount1 hWF d b cb
  refine ⟨?_, ?_, ?_, ?_⟩
  · rw [keys_setCount1, keys_setCount1, keys_setCount1, keys_setCount1]
    rw [setCount1_versions_lookup_ne d ca (fun hc => hab hc.symm)]
    rw [setCount1_versions_lookup_ne d cb hab]
    by_cases hva : (s.versions.lookup a).isSome <;>
      by_cases hvb : (s.versions.lookup b).isSome
    · simp [hva, hvb]
    · simp [hva, hvb]
    · simp [hva, hvb]
    · simp only [hva, hvb, Bool.false_eq_true, if_neg, not_false_iff]
      rw [List.append_assoc, List.append_assoc]
      exact List.Perm.append_left _ (List.Perm.swap b a [])
  · intro w
    simp only [maxOf_setCount1]
    have hba : ¬ (b = a ∧ maxOf s a < ca) := fun hc => hab hc.1.symm
    have hab' : ¬ (a = b ∧ maxOf s b < cb) := fun hc => hab hc.1
    rw [if_neg hba, if_neg hab']
    have hba2 : b ≠ a := Ne.symm hab
    by_cases hwa : w = a <;> by_cases hwb : w = b <;>
      by_cases hca : maxOf s a < ca <;> by_cases hcb : maxOf s b < cb <;>
        simp [hwa, hwb, hca, hcb, hab, hba2]
  · intro d' w
    rw [cellVal_setCount1 hWFa, cellVal_setCount1 hWF, cellVal_setCount1 hWFb,
      cellVal_setCount1 hWF]
    by_cases hd : d' = d
    · by_cases hwa : w = a <;> by_cases hwb : w = b
      · exact absurd (hwa.symm.trans hwb) hab
      · rw [if_neg (fun hc => hwb hc.2), if_pos ⟨hd, hwa⟩, if_pos ⟨hd, hwa⟩]
      · rw [if_pos ⟨hd, hwb⟩, if_neg (fun hc => hwa hc.2), if_pos ⟨hd, hwb⟩]
      · rw [if_neg (fun hc => hwb hc.2), if_neg (fun hc => hwa hc.2),
          if_neg (fun hc => hwa hc.2), if_neg (fun hc => hwb hc.2)]
    · rw [if_neg (fun hc => hd hc.1), if_neg (fun hc => hd hc.1),
        if_neg (fun hc => hd hc.1), if_neg (fun hc => hd hc.1)]
  · rw [rowKeys_setCount1, rowKeys_setCount1, rowKeys_setCount1, rowKeys_setCount1]
    have ha : ((setCount1 s d a ca).rows.lookup d).isSome := by
      rw [setCount1_rows, lookup_aset_self]
      rfl
    have hb : ((setCount1 s d b cb).rows.lookup d).isSome := by
      rw [setCount1_rows, lookup_aset_self]
      rfl
    rw [if_pos ha, if_pos hb]

theorem absEq_setCount_perm {d : String} {cs₁ cs₂ : List (String × Int)}
    (hp : cs₁.Perm cs₂) :
    ∀ {s t : Summary}, absEq s t → SummaryWF s → SummaryWF t →
      (cs₁.map Prod.fst).Nodup →
      absEq (setCount s d cs₁) (setCount t d cs₂) := by
  induction hp with
  | nil =>
    intro s t h _ _ _
    exact h
  | @cons x l₁ l₂ p ih =>
    intro s t h hs ht hnd
    rw [List.map_cons, List.nodup_cons] at hnd
    have e1 : setCount s d (x :: l₁) = setCount (setCount1 s d x.1 x.2) d l₁ := rfl
    have e2 : setCount t d (x :: l₂) = setCount (setCount1 t d x.1 x.2) d l₂ := rfl
    rw [e1, e2]
    exact ih (absEq_setCount1 h hs ht d x.1 x.2)
      (summaryWF_setCount1 hs d x.1 x.2) (summaryWF_setCount1 ht d x.1 x.2) hnd.2
  | @swap x y l =>
    intro s t h hs ht hnd
    rw [List.map_cons, List.map_cons, List.nodup_cons, List.nodup_cons] at hnd
    have hxy : y.1 ≠ x.1 := by
      intro hc
      exact hnd.1 (List.mem_cons.mpr (Or.inl hc))
    have e1 : setCount s d (y :: x :: l) =
        setCount (setCount1 (setCount1 s d y.1 y.2) d x.1 x.2) d l := rfl
    have e2 : setCount t d (x :: y :: l) =
        setCount (setCount1 (setCount1 t d x.1 x.2) d y.1 y.2) d l := rfl
    rw [e1, e2]
    have hseed : absEq (setCount1 (setCount1 s d y.1 y.2) d x.1 x.2)
        (setCount1 (setCount1 t d x.1 x.2) d y.1 y.2) := by
      have hstep1 : absEq (setCount1 (setCount1 s d y.1 y.2) d x.1 x.2)
          (setCount1 (setCount1 s d x.1 x.2) d y.1 y.2) :=
        absEq_setCount1_swap hs d hxy y.2 x.2
      have hstep2 : absEq (setCount1 (setCount1 s d x.1 x.2) d y.1 y.2)
          (setCount1 (setCount1 t d x.1 x.2) d y.1 y.2) :=
        absEq_setCount1 (absEq_setCount1 h hs ht d x.1 x.2)
          (summaryWF_setCount1 hs d x.1 x.2) (summaryWF_setCount1 ht d x.1 x.2) d y.1 y.2
      exact absEq_trans hstep1 hstep2
    exact absEq_setCount_list l hseed
      (summaryWF_setCount1 (summaryWF_setCount1 hs d y.1 y.2) d x.1 x.2)
      (summaryWF_setCount1 (summaryWF_setCount1 ht d x.1 x.2) d y.1 y.2)
  | @trans l₁ l₂ l₃ p₁ p₂ ih₁ ih₂ =>
    intro s t h hs ht hnd
    have hnd₂ : (l₂.map Prod.fst).Nodup := ((p₁.map Prod.fst).nodup_iff).mp hnd
    have h₁ : absEq (setCount s d l₁) (setCount t d l₂) := ih₁ h hs ht hnd
    have h₂ : absEq (setCount t d l₂) (setCount t d l₃) :=
      ih₂ (absEq_refl t) ht ht hnd₂
    exact absEq_trans h₁ h₂

/-- Fold of a sequence of (date, version counts) reports into the summary
table, as performed by cacheGraphData restricted to the summary component. -/
def foldReports (s : Summary) (reps : List (String × List (String × Int))) : Summary :=
  reps.foldl (fun acc r => setCount acc r.1 r.2) s

theorem summaryWF_foldReports :
    ∀ (reps : List (String × List (String × Int))) {s : Summary}, SummaryWF s →
      SummaryWF (foldReports s reps) := by
  intro reps
  induction reps with
  | nil => intro s h; exact h
  | cons r l ih =>
    intro s h
    have e : foldReports s (r :: l) = foldReports (setCount s r.1 r.2) l := rfl
    rw [e]
    exact ih (summaryWF_setCount r.2 h)

theorem absEq_foldReports {reps₁ reps₂ : List (String × List (String × Int))}
    (hrel : List.Forall₂ (fun r₁ r₂ => r₁.1 = r₂.1 ∧ r₁.2.Perm r₂.2 ∧
      (r₁.2.map Prod.fst).Nodup) reps₁ reps₂) :
    ∀ {s t : Summary}, absEq s t → SummaryWF s → SummaryWF t →
      absEq (foldReports s reps₁) (foldReports t reps₂) := by
  induction hrel with
  | nil =>
    intro s t h _ _
    exact h
  | @cons r₁ r₂ l₁ l₂ hr hrest ih =>
    intro s t h hs ht
    obtain ⟨hdate, hperm, hnd⟩ := hr
    have e1 : foldReports s (r₁ :: l₁) = foldReports (setCount s r₁.1 r₁.2) l₁ := rfl
    have e2 : foldReports t (r₂ :: l₂) = foldReports (setCount t r₂.1 r₂.2) l₂ := rfl
    rw [e1, e2, ← hdate]
    exact ih (absEq_setCount_perm hperm h hs ht hnd)
      (summaryWF_setCount r₁.2 hs) (summaryWF_setCount r₂.2 ht)

theorem eq_of_perm_sorted_antisymm {α : Type} {r : α → α → Prop} :
    ∀ {l₁ l₂ : List α}, l₁.Perm l₂ → l₁.Sorted r → l₂.Sorted r →
      (∀ a ∈ l₁, ∀ b ∈ l₁, r a b → r b a → a = b) → l₁ = l₂ := by
  intro l₁
  induction l₁ with
  | nil =>
    intro l₂ hp _ _ _
    exact hp.nil_eq
  | cons a t ih =>
    intro l₂ hp hs₁ hs₂ has
    cases l₂ with
    | nil => exact hp.symm.nil_eq.symm
    | cons b t₂ =>
      by_cases hab : a = b
      · subst hab
        have hpt := hp.cons_inv
        have htail := ih hpt (List.sorted_cons.mp hs₁).2 (List.sorted_cons.mp hs₂).2
          (fun x hx y hy hxy hyx =>
            has x (List.mem_cons_of_mem a hx) y (List.mem_cons_of_mem a hy) hxy hyx)
        rw [htail]
      · exfalso
        have hamem : a ∈ b :: t₂ := hp.mem_iff.mp (List.mem_cons_self a t)
        have hat₂ : a ∈ t₂ := by
          rcases List.mem_cons.mp hamem with he | hm
          · exact absurd he hab
          · exact hm
        have hrba : r b a := (List.sorted_cons.mp hs₂).1 a hat₂
        have hbmem : b ∈ a :: t := hp.mem_iff.mpr (List.mem_cons_self b t₂)
        have hbt : b ∈ t := by
          rcases List.mem_cons.mp hbmem with he | hm
          · exact absurd he.symm hab
          · exact hm
        have hrab : r a b := (List.sorted_cons.mp hs₁).1 b hbt
        exact hab (has a (List.mem_cons_self a t) b (List.mem_cons_of_mem a hbt) hrab hrba)

theorem marshal_eq_of_absEq (s t : Summary) (vIs vIt dIs dIt : List String)
    (habs : absEq s t)
    (hvs : vIs.Perm (s.versions.map Prod.fst)) (hvt : vIt.Perm (t.versions.map Prod.fst))
    (hds : dIs.Perm (s.rows.map Prod.fst)) (hdt : dIt.Perm (t.rows.map Prod.fst))
    (hties : ∀ a ∈ s.versions.map Prod.fst, ∀ b ∈ s.versions.map Prod.fst,
      compareVersions a b = 0 → a = b) :
    marshalJSONWith s vIs dIs = marshalJSONWith t vIt dIt := by
  obtain ⟨hkeys, hmax, hcell, hdates⟩ := habs
  have hsort : List.insertionSort verLE vIs = List.insertionSort verLE vIt := by
    apply eq_of_perm_sorted_antisymm
    · exact (List.perm_insertionSort verLE vIs).trans
        ((hvs.trans hkeys).trans
          (hvt.symm.trans (List.perm_insertionSort verLE vIt).symm))
    · exact List.sorted_insertionSort verLE vIs
    · exact List.sorted_insertionSort verLE vIt
    · intro x hx y hy hxy hyx
      have hx' : x ∈ s.versions.map Prod.fst :=
        hvs.mem_iff.mp ((List.perm_insertionSort verLE vIs).mem_iff.mp hx)
      have hy' : y ∈ s.versions.map Prod.fst :=
        hvs.mem_iff.mp ((List.perm_insertionSort verLE vIs).mem_iff.mp hy)
      exact hties x hx' y hy' (verLE_antisymm_key hxy hyx)
  have hdsort : List.insertionSort strLE dIs = List.insertionSort strLE dIt := by
    apply eq_of_perm_sorted_antisymm
    · exact (List.perm_insertionSort strLE dIs).trans
        ((hds.trans hdates).trans
          (hdt.symm.trans (List.perm_insertionSort strLE dIt).symm))
    · exact List.sorted_insertionSort strLE dIs
    · exact List.sorted_insertionSort strLE dIt
    · intro x _ y _ hxy hyx
      exact strLE_antisymm hxy hyx
  have hfilt : (List.insertionSort verLE vIt).filter
        (fun v => decide (50 < (s.max.lookup v).getD 0)) =
      (List.insertionSort verLE vIt).filter
        (fun v => decide (50 < (t.max.lookup v).getD 0)) := by
    apply List.filter_congr
    intro v _
    have hm := hmax v
    unfold maxOf at hm
    rw [hm]
  unfold marshalJSONWith
  rw [hsort, hdsort]
  simp only [hfilt]
  congr 1
  apply List.map_congr_left
  intro d _
  congr 1
  apply List.map_congr_left
  intro v hvmem
  have hvt' : v ∈ t.versions.map Prod.fst :=
    hvt.mem_iff.mp ((List.perm_insertionSort verLE vIt).mem_iff.mp
      (List.mem_of_mem_filter hvmem))
  have hvs' : v ∈ s.versions.map Prod.fst := hkeys.mem_iff.mpr hvt'
  obtain ⟨is, his⟩ := lookup_isSome_of_mem_keys hvs'
  obtain ⟨it, hit⟩ := lookup_isSome_of_mem_keys hvt'
  rw [summaryCell_eq d his, summaryCell_eq d hit, hcell d v]

/-- C9 (amended): summary serialization is deterministic up to semver-equal
distinct version strings.  Two runs that fold the same sequence of daily
reports — each report's version-count map ranged over in an arbitrary order —
and serialize with arbitrary iteration orders over the version and date maps
produce identical tables, PROVIDED no two distinct folded version strings
compare equal under the semantic-version comparison; the active versions are
sorted by that comparison and the dates lexically, which pins the output down
exactly when the comparison distinguishes all folded versions. -/
theorem c9_marshal_deterministic_without_ties
    (reps₁ reps₂ : List (String × List (String × Int)))
    (vI₁ vI₂ dI₁ dI₂ : List String)
    (hrel : List.Forall₂ (fun r₁ r₂ => r₁.1 = r₂.1 ∧ r₁.2.Perm r₂.2 ∧
      (r₁.2.map Prod.fst).Nodup) reps₁ reps₂)
    (hv₁ : vI₁.Perm ((foldReports newSummary reps₁).versions.map Prod.fst))
    (hv₂ : vI₂.Perm ((foldReports newSummary reps₂).versions.map Prod.fst))
    (hd₁ : dI₁.Perm ((foldReports newSummary reps₁).rows.map Prod.fst))
    (hd₂ : dI₂.Perm ((foldReports newSummary reps₂).rows.map Prod.fst))
    (hties : ∀ a ∈ (foldReports newSummary reps₁).versions.map Prod.fst,
      ∀ b ∈ (foldReports newSummary reps₁).versions.map Prod.fst,
        compareVersions a b = 0 → a = b) :
    marshalJSONWith (foldReports newSummary reps₁) vI₁ dI₁ =
      marshalJSONWith (foldReports newSummary reps₂) vI₂ dI₂ :=
  marshal_eq_of_absEq _ _ _ _ _ _
    (absEq_foldReports hrel (absEq_refl newSummary) summaryWF_new summaryWF_new)
    hv₁ hv₂ hd₁ hd₂ hties

/-- Daily report list with two semver-distinct versions, in one iteration
order. -/
def okReps₁ : List (String × List (String × Int)) :=
  [(("2024-01-01"), [(("v1.0.0"), 60), (("v2.0.0"), 70)])]

/-- The same report with the version-count map ranged over in the opposite
order. -/
def okReps₂ : List (String × List (String × Int)) :=
  [(("2024-01-01"), [(("v2.0.0"), 70), (("v1.0.0"), 60)])]

/-- C9 witness: folding the same report with its version-count map iterated
in opposite orders serializes identically when the two versions are
semver-distinct. -/
theorem c9_marshal_deterministic_without_ties_witness :
    (List.Forall₂ (fun r₁ r₂ => r₁.1 = r₂.1 ∧ r₁.2.Perm r₂.2 ∧
        (r₁.2.map Prod.fst).Nodup) okReps₁ okReps₂ ∧
      (∀ a ∈ (foldReports newSummary okReps₁).versions.map Prod.fst,
        ∀ b ∈ (foldReports newSummary okReps₁).versions.map Prod.fst,
          compareVersions a b = 0 → a = b)) ∧
    marshalJSON (foldReports newSummary okReps₁) =
      marshalJSON (foldReports newSummary okReps₂) :=
  ⟨⟨List.Forall₂.cons ⟨rfl, by decide, by decide⟩ List.Forall₂.nil, by decide⟩,
    c9_marshal_deterministic_without_ties okReps₁ okReps₂ _ _ _ _
      (List.Forall₂.cons ⟨rfl, by decide, by decide⟩ List.Forall₂.nil)
      (List.Perm.refl _) (List.Perm.refl _) (List.Perm.refl _) (List.Perm.refl _)
      (by decide)⟩

/-- C9 counterexample: the distinct version strings "1.0.0" and "1.00.0"
compare equal under the numeric semantic-version comparison, so the sort
leaves them in iteration order and two runs folding the same multiset of
counts serialize to different tables. -/
theorem c9_counterexample_equal_versions_order :
    compareVersions ("1.0.0") ("1.00.0") = 0 ∧
    ("1.0.0" : String) ≠ ("1.00.0") ∧
    [(("1.0.0"), (60 : Int)), (("1.00.0"), 70)].Perm
      [(("1.00.0"), 70), (("1.0.0"), 60)] ∧
    marshalJSON (foldReports newSummary
        [(("2024-01-01"), [(("1.0.0"), 60), (("1.00.0"), 70)])]) ≠
      marshalJSON (foldReports newSummary
        [(("2024-01-01"), [(("1.00.0"), 70), (("1.0.0"), 60)])]) := by
  refine ⟨by decide, by decide, by decide, by decide⟩
